import Mathlib

/-!
Verification of the expense-splitting and settlement-optimization engine of the
trip-expenses-splitter repository.

The embedding covers the two components the specification describes:

* the currency arithmetic module, `src/lib/utils/currency.ts` (`CurrencyUtils`);
* the balance and settlement engine, the `BalanceCalculator` class found in
  `src/unnamed/part_007`.

Modelling conventions:

* JavaScript numbers are modelled as exact rationals (`ℚ`).  The data-model
  section of the specification requires every monetary value entering the
  engine to be representable at cent precision; theorems that need this
  precondition take an explicit `IsCent` hypothesis.
* `Math.round` rounds to the nearest integer, halves toward positive
  infinity, which on the reals is `⌊x + 1/2⌋`; `Math.floor` is `⌊·⌋`.
* `throw` statements are modelled with `Except CalcError`.
* JavaScript `Map`s are modelled as insertion-ordered association lists:
  `set` updates an existing key in place and appends a fresh key at the end,
  and `forEach` iterates in list order, exactly as JS `Map` does.
* The `while` loop of `optimizeSettlements` is modelled by a fuel-indexed
  structural recursion.  The fuel passed at the call site is the combined
  length of the creditor and debtor lists, which is sufficient because every
  iteration of the source loop advances `creditorIndex` or `debtorIndex`
  (the side achieving `min` is driven exactly to zero); the accounting
  lemmas below prove that with this fuel the loop always reaches a regular
  exit, so the model agrees with the unbounded source loop.
* Fields of purely presentational nature that no modelled function ever
  reads (`id`, `tripId`, `description`, `currency`, `date`, `category` of an
  expense) are omitted from the record types.
* The source field names `from`/`to` of a settlement are Lean keywords and
  are rendered `fromUser`/`toUser` (`fromName`/`toName` keep their names).
-/

namespace TripSplit

/-- Errors thrown by the currency utilities and the balance calculator.
Each constructor corresponds to one `throw new Error(...)` site. -/
inductive CalcError where
  /-- `distribute`: "Shares must be positive". -/
  | sharesNotPositive
  /-- `distribute`: "Total must be non-negative". -/
  | totalNegative
  /-- `distributeByPercentages`: "Percentages must sum to 100". -/
  | percentSumInvalid
  /-- `calculateCustomShares`: "Custom amounts must sum to total expense amount". -/
  | customSumInvalid
  /-- `distributeByShares`: "Total shares must be positive". -/
  | shareWeightsZero
  /-- `divide`: "Division by zero". -/
  | divisionByZero
deriving DecidableEq, Repr

/-- Decidable equality for `Except` values, used to state concrete
evaluations of the fallible operations. -/
def exceptDecEq {ε α : Type} [DecidableEq ε] [DecidableEq α] :
    (a b : Except ε α) → Decidable (a = b)
  | .error x, .error y =>
    if h : x = y then .isTrue (congrArg Except.error h)
    else .isFalse fun hc => h (Except.error.inj hc)
  | .error _, .ok _ => .isFalse fun hc => Except.noConfusion hc
  | .ok _, .error _ => .isFalse fun hc => Except.noConfusion hc
  | .ok x, .ok y =>
    if h : x = y then .isTrue (congrArg Except.ok h)
    else .isFalse fun hc => h (Except.ok.inj hc)

instance {ε α : Type} [DecidableEq ε] [DecidableEq α] : DecidableEq (Except ε α) :=
  exceptDecEq

/-- JavaScript `Math.round`: nearest integer, halves rounded toward `+∞`. -/
def jsRound (q : ℚ) : ℤ := ⌊q + 1 / 2⌋

/-- `CurrencyUtils.round`: `Math.round(amount * 100) / 100`. -/
def round (q : ℚ) : ℚ := (jsRound (q * 100) : ℚ) / 100

/-- `CurrencyUtils.add` (the source is variadic, all call sites pass two
summands; `reduce` computes `(0 + a) + b = a + b`). -/
def add (a b : ℚ) : ℚ := round (a + b)

/-- `CurrencyUtils.subtract`. -/
def subtract (a b : ℚ) : ℚ := round (a - b)

/-- `CurrencyUtils.multiply`. -/
def multiply (a b : ℚ) : ℚ := round (a * b)

/-- `CurrencyUtils.divide`; throws on a zero divisor. -/
def divide (a b : ℚ) : Except CalcError ℚ :=
  if b = 0 then .error .divisionByZero else .ok (round (a / b))

/-- `CurrencyUtils.isEqual`: absolute difference below the 0.01 tolerance. -/
def isEqual (a b : ℚ) : Bool := decide (|a - b| < 1 / 100)

/-- `CurrencyUtils.isZero`. -/
def isZero (a : ℚ) : Bool := decide (|a| < 1 / 100)

/-- `CurrencyUtils.distribute`: equal split with the remainder cents handed,
one cent each, to the first `remainderCents` parts.  The source's in-place
update loop `for (i = 0; i < remainderCents && i < shares; i++)` touches each
index at most once, so the result is the map below. -/
def distribute (total : ℚ) (shares : ℤ) : Except CalcError (List ℚ) :=
  if shares ≤ 0 then .error .sharesNotPositive
  else if total < 0 then .error .totalNegative
  else
    let baseAmount : ℚ := (⌊total * 100 / (shares : ℚ)⌋ : ℚ) / 100
    let remainder : ℚ := round (total - baseAmount * (shares : ℚ))
    let remainderCents : ℤ := jsRound (remainder * 100)
    .ok ((List.range shares.toNat).map fun (i : ℕ) =>
      if (i : ℤ) < remainderCents then round (baseAmount + 1 / 100) else baseAmount)

/-- JavaScript `Math.max(...amounts)` for the non-empty lists on which the
source evaluates it. -/
def maxOf : List ℚ → ℚ
  | [] => 0
  | a :: rest => rest.foldl max a

/-- The rounding-error adjustment block that `distributeByPercentages` and
`distributeByShares` both contain verbatim: when the rounding residual
exceeds the 0.01 tolerance, add it in full to the (first) largest amount. -/
def adjustForRounding (total : ℚ) (amounts : List ℚ) : List ℚ :=
  let calculatedTotal := amounts.sum
  let difference := round (total - calculatedTotal)
  if 1 / 100 < |difference| then
    let maxIndex := amounts.indexOf (maxOf amounts)
    amounts.set maxIndex (add (amounts.getD maxIndex 0) difference)
  else amounts

/-- `CurrencyUtils.distributeByPercentages`. -/
def distributeByPercentages (total : ℚ) (percentages : List ℚ) :
    Except CalcError (List ℚ) :=
  if 1 / 100 < |percentages.sum - 100| then .error .percentSumInvalid
  else
    .ok (adjustForRounding total (percentages.map fun pct => multiply total (pct / 100)))

/-- `CurrencyUtils.distributeByShares`.  Note that the source only rejects a
weight sum that is exactly zero. -/
def distributeByShares (total : ℚ) (shares : List ℚ) :
    Except CalcError (List ℚ) :=
  let totalShares := shares.sum
  if totalShares = 0 then .error .shareWeightsZero
  else
    .ok (adjustForRounding total (shares.map fun share => multiply total (share / totalShares)))

/-- A rational is representable at cent precision. -/
def IsCent (q : ℚ) : Prop := ∃ k : ℤ, q = (k : ℚ) / 100

/-! ### Data model of the balance calculator (`src/unnamed/part_007`) -/

/-- `SplitType` of an expense. -/
inductive SplitType where
  | EQUAL | PERCENTAGE | CUSTOM | SHARES
deriving DecidableEq, Repr

/-- `ParticipantShare` as supplied by the caller (the optional computed
`amount` of the source is represented by `ComputedShare` below). -/
structure ParticipantShare where
  userId : String
  name : String
  value : ℚ
deriving DecidableEq, Repr

/-- A `ParticipantShare` whose `amount` has been filled in by
`calculateShares`. -/
structure ComputedShare where
  userId : String
  name : String
  value : ℚ
  amount : ℚ
deriving DecidableEq, Repr

/-- `EnhancedExpense` (presentational fields that the calculator never reads
are omitted, see the header). -/
structure EnhancedExpense where
  amount : ℚ
  paidBy : String
  paidByName : String
  splitType : SplitType
  participants : List ParticipantShare
deriving DecidableEq, Repr

/-- `UserBalance`. -/
structure UserBalance where
  userId : String
  name : String
  balance : ℚ
  totalPaid : ℚ
  totalOwed : ℚ
  totalShare : ℚ
deriving DecidableEq, Repr

/-- `DebtRelationship`. -/
structure DebtRelationship where
  creditor : String
  creditorName : String
  debtor : String
  debtorName : String
  amount : ℚ
deriving DecidableEq, Repr

/-- `Settlement` (`from`/`to` are Lean keywords, rendered
`fromUser`/`toUser`). -/
structure Settlement where
  fromUser : String
  fromName : String
  toUser : String
  toName : String
  amount : ℚ
deriving DecidableEq, Repr

/-- The `summary` block of a `BalanceCalculationResult`. -/
structure ResultSummary where
  totalTransactions : ℕ
  totalSettlementAmount : ℚ
  averagePerPerson : ℚ
  isBalanced : Bool
deriving DecidableEq, Repr

/-- `BalanceCalculationResult`. -/
structure BalanceCalculationResult where
  userBalances : List UserBalance
  debtRelationships : List DebtRelationship
  settlements : List Settlement
  totalExpenses : ℚ
  summary : ResultSummary
deriving DecidableEq, Repr

/-! ### JavaScript `Map` as an insertion-ordered association list -/

/-- `Map.get`: the value at the first entry with the key, if any (the maps
built by this model never hold a key twice, exactly like a JS `Map`). -/
def mget {α : Type} : List (String × α) → String → Option α
  | [], _ => none
  | p :: rest, k => if p.1 = k then some p.2 else mget rest k

/-- `Map.set`: update an existing key in place, append a fresh key at the
end, preserving insertion order exactly like a JS `Map`. -/
def mset {α : Type} : List (String × α) → String → α → List (String × α)
  | [], k, v => [(k, v)]
  | p :: rest, k, v => if p.1 = k then (k, v) :: rest else p :: mset rest k v

/-- Keys of a map, in iteration order. -/
def mkeys {α : Type} (m : List (String × α)) : List String := m.map (·.1)

/-- The state the `BalanceCalculator` constructor builds: the private
`userBalances` and `debtGraph` maps (`userNames` is a pure function of the
expense list and is passed separately). -/
structure CalcState where
  userBalances : List (String × UserBalance)
  debtGraph : List (String × List (String × ℚ))
deriving DecidableEq, Repr

/-- `initializeUserNames`: for each expense, record the payer's name and then
each participant's name. -/
def initializeUserNames (expenses : List EnhancedExpense) :
    List (String × String) :=
  expenses.foldl
    (fun m e =>
      e.participants.foldl (fun m p => mset m p.userId p.name)
        (mset m e.paidBy e.paidByName))
    []

/-- The `this.userNames.get(u) || 'Unknown'` pattern (JS `||` also replaces
an empty-string name). -/
def nameOf (names : List (String × String)) (u : String) : String :=
  match mget names u with
  | some n => if n = "" then "Unknown" else n
  | none => "Unknown"

/-! ### Per-expense share computation -/

/-- The `shares.map((share, index) => ({...share, amount: amounts[index]}))`
pattern; the two lists always have the same length (`distribute` and both
weighted distributions return one amount per input entry). -/
def zipAmounts (shares : List ParticipantShare) (amounts : List ℚ) :
    List ComputedShare :=
  shares.zipWith (fun s a => ⟨s.userId, s.name, s.value, a⟩) amounts

/-- `calculateEqualShares`. -/
def calculateEqualShares (e : EnhancedExpense) :
    Except CalcError (List ComputedShare) := do
  let amounts ← distribute e.amount (e.participants.length : ℤ)
  .ok (zipAmounts e.participants amounts)

/-- `calculatePercentageShares`. -/
def calculatePercentageShares (e : EnhancedExpense) :
    Except CalcError (List ComputedShare) := do
  let amounts ← distributeByPercentages e.amount (e.participants.map (·.value))
  .ok (zipAmounts e.participants amounts)

/-- `calculateCustomShares`: the literal values must reproduce the total
within tolerance, and each becomes an amount after rounding. -/
def calculateCustomShares (e : EnhancedExpense) :
    Except CalcError (List ComputedShare) :=
  let totalCustomAmount := (e.participants.map (·.value)).sum
  if isEqual totalCustomAmount e.amount then
    .ok (e.participants.map fun s => ⟨s.userId, s.name, s.value, round s.value⟩)
  else .error .customSumInvalid

/-- `calculateWeightedShares`. -/
def calculateWeightedShares (e : EnhancedExpense) :
    Except CalcError (List ComputedShare) := do
  let amounts ← distributeByShares e.amount (e.participants.map (·.value))
  .ok (zipAmounts e.participants amounts)

/-- `calculateShares`: dispatch on the split type.  The source's `default`
branch (unknown split type) is unreachable for the closed `SplitType`. -/
def calculateShares (e : EnhancedExpense) :
    Except CalcError (List ComputedShare) :=
  match e.splitType with
  | .EQUAL => calculateEqualShares e
  | .PERCENTAGE => calculatePercentageShares e
  | .CUSTOM => calculateCustomShares e
  | .SHARES => calculateWeightedShares e

/-! ### Balance and debt-graph accumulation -/

/-- The zero record `updateUserBalance` creates for a user that has no
balance entry yet. -/
def freshUserBalance (names : List (String × String)) (userId : String) :
    UserBalance :=
  { userId := userId, name := nameOf names userId
    balance := 0, totalPaid := 0, totalOwed := 0, totalShare := 0 }

/-- `updateUserBalance`.  The source guards the accumulations with JS
truthiness (`if (amounts.paid)`), so an explicit zero is skipped exactly
like an absent field. -/
def updateUserBalance (names : List (String × String))
    (m : List (String × UserBalance)) (userId : String)
    (paid owed : Option ℚ) : List (String × UserBalance) :=
  let existing := (mget m userId).getD (freshUserBalance names userId)
  let totalPaid := match paid with
    | some p => if p ≠ 0 then add existing.totalPaid p else existing.totalPaid
    | none => existing.totalPaid
  let totalShare := match owed with
    | some w => if w ≠ 0 then add existing.totalShare w else existing.totalShare
    | none => existing.totalShare
  let balance := subtract totalPaid totalShare
  let totalOwed := if balance < 0 then |balance| else 0
  mset m userId
    { userId := userId, name := existing.name, balance := balance
      totalPaid := totalPaid, totalOwed := totalOwed, totalShare := totalShare }

/-- `updateDebtGraph`: `debtGraph[debtor][creditor] += amount`. -/
def updateDebtGraph (dg : List (String × List (String × ℚ)))
    (debtor creditor : String) (amount : ℚ) :
    List (String × List (String × ℚ)) :=
  let inner := (mget dg debtor).getD []
  let existingDebt := (mget inner creditor).getD 0
  mset dg debtor (mset inner creditor (add existingDebt amount))

/-- The per-share body of `processExpense`'s loop: update the participant's
balance, and record a debt edge when the participant is not the payer. -/
def applyShares (names : List (String × String)) (paidBy : String) :
    List ComputedShare → List (String × UserBalance) →
    List (String × List (String × ℚ)) →
    List (String × UserBalance) × List (String × List (String × ℚ))
  | [], ub, dg => (ub, dg)
  | s :: rest, ub, dg =>
    let ub2 := updateUserBalance names ub s.userId none (some s.amount)
    let dg2 := if s.userId ≠ paidBy then updateDebtGraph dg s.userId paidBy s.amount else dg
    applyShares names paidBy rest ub2 dg2

/-- `processExpense`. -/
def processExpense (names : List (String × String)) (st : CalcState)
    (e : EnhancedExpense) : Except CalcError CalcState := do
  let shares ← calculateShares e
  let ub1 := updateUserBalance names st.userBalances e.paidBy (some e.amount) none
  let (ub2, dg2) := applyShares names e.paidBy shares ub1 st.debtGraph
  .ok ⟨ub2, dg2⟩

/-- The expense loop of `calculateBalances`. -/
def processAll (names : List (String × String)) :
    CalcState → List EnhancedExpense → Except CalcError CalcState
  | st, [] => .ok st
  | st, e :: rest => do processAll names (← processExpense names st e) rest

/-- `ensureAllUsersHaveBalances`. -/
def ensureAllUsersHaveBalances (names : List (String × String))
    (m : List (String × UserBalance)) : List (String × UserBalance) :=
  names.foldl
    (fun m p =>
      if (mget m p.1).isSome then m
      else mset m p.1
        { userId := p.1, name := p.2, balance := 0
          totalPaid := 0, totalOwed := 0, totalShare := 0 })
    m

/-- The state built by the `BalanceCalculator` constructor
(`initializeUserNames` followed by `calculateBalances`). -/
def calcState (expenses : List EnhancedExpense) : Except CalcError CalcState := do
  let names := initializeUserNames expenses
  let st ← processAll names ⟨[], []⟩ expenses
  .ok { st with userBalances := ensureAllUsersHaveBalances names st.userBalances }

/-! ### Output assembly -/

/-- Stable insertion step for the JS `sort` comparator `(a, b) => key b - key a`
(descending; later elements never overtake equal keys). -/
def insertByDesc {α : Type} (key : α → ℚ) (x : α) : List α → List α
  | [] => [x]
  | y :: ys => if key y < key x then x :: y :: ys else y :: insertByDesc key x ys

/-- Stable descending sort, modelling JS `Array.prototype.sort` (stable per
the ECMAScript specification) with a `b - a` comparator. -/
def sortByDesc {α : Type} (key : α → ℚ) (l : List α) : List α :=
  l.foldl (fun acc x => insertByDesc key x acc) []

/-- `getUserBalances`: map values, sorted by balance descending. -/
def getUserBalances (st : CalcState) : List UserBalance :=
  sortByDesc (·.balance) (st.userBalances.map (·.2))

/-- `getDebtRelationships`: edges above tolerance, sorted by amount
descending. -/
def getDebtRelationships (names : List (String × String))
    (dg : List (String × List (String × ℚ))) : List DebtRelationship :=
  sortByDesc (·.amount)
    (dg.foldl
      (fun acc p =>
        p.2.foldl
          (fun acc q =>
            if 1 / 100 < q.2 then
              acc ++ [{ creditor := q.1, creditorName := nameOf names q.1
                        debtor := p.1, debtorName := nameOf names p.1
                        amount := round q.2 }]
            else acc)
          acc)
      [])

/-- One edge of the `computeNetBalances` fold: read both balances, then
subtract the amount from the debtor and add it to the creditor. -/
def nbStep (m : List (String × ℚ)) (d : String) (q : String × ℚ) :
    List (String × ℚ) :=
  let currentDebtorBalance := (mget m d).getD 0
  let currentCreditorBalance := (mget m q.1).getD 0
  let m2 := mset m d (subtract currentDebtorBalance q.2)
  mset m2 q.1 (add currentCreditorBalance q.2)

/-- `computeNetBalances`: start every known user at zero, then fold the debt
graph, subtracting each edge from the debtor and adding it to the creditor. -/
def computeNetBalances (names : List (String × String))
    (dg : List (String × List (String × ℚ))) : List (String × ℚ) :=
  let init := names.foldl (fun m p => mset m p.1 0) []
  dg.foldl (fun m p => p.2.foldl (fun m q => nbStep m p.1 q) m) init

/-- The greedy `while` loop of `optimizeSettlements`, with the advancing
`creditorIndex`/`debtorIndex` rendered as consuming two lists.  Besides the
recorded settlements (component 1) the model returns, for specification
purposes, the creditor and debtor entries left unprocessed at exit
(components 2 and 3) and the settle steps that were performed but dropped
from the output because the settled amount was within tolerance
(component 4).  The fuel is structural-recursion bookkeeping: every source
iteration drives the smaller of the two current entries exactly to zero and
so advances at least one index, hence combined list length is an upper
bound on the iteration count (`settleLoop_spec` below proves fuel
sufficiency along with the accounting). -/
def settleLoop (names : List (String × String)) :
    ℕ → List (String × ℚ) → List (String × ℚ) →
    List Settlement × List (String × ℚ) × List (String × ℚ) × List Settlement
  | _, [], ds => ([], [], ds, [])
  | _, cs, [] => ([], cs, [], [])
  | 0, cs, ds => ([], cs, ds, [])
  | fuel + 1, (c, ca) :: cs, (d, da) :: ds =>
    let settleAmount := min ca da
    let s : Settlement :=
      { fromUser := d, fromName := nameOf names d
        toUser := c, toName := nameOf names c, amount := round settleAmount }
    let ca2 := subtract ca settleAmount
    let da2 := subtract da settleAmount
    let cs2 := if isZero ca2 then cs else (c, ca2) :: cs
    let ds2 := if isZero da2 then ds else (d, da2) :: ds
    let r := settleLoop names fuel cs2 ds2
    if 1 / 100 < settleAmount then (s :: r.1, r.2.1, r.2.2.1, r.2.2.2)
    else (r.1, r.2.1, r.2.2.1, s :: r.2.2.2)

/-- `optimizeSettlements`: partition the net balances into creditors and
debtors (tolerance band excluded), sort both descending, run the greedy
loop, and return the recorded settlements sorted by amount descending. -/
def optimizeSettlements (names : List (String × String))
    (dg : List (String × List (String × ℚ))) : List Settlement :=
  let netBalances := computeNetBalances names dg
  let creditors := netBalances.filter fun p => decide (1 / 100 < p.2)
  let debtors := netBalances.filterMap fun p =>
    if p.2 < -(1 / 100) then some (p.1, |p.2|) else none
  let creditorsSorted := sortByDesc (·.2) creditors
  let debtorsSorted := sortByDesc (·.2) debtors
  let r := settleLoop names (creditorsSorted.length + debtorsSorted.length)
    creditorsSorted debtorsSorted
  sortByDesc (·.amount) r.1

/-- `getCalculationResult` on a freshly constructed calculator: the whole
entry point the external callers use (`new BalanceCalculator(expenses)`
followed by `getCalculationResult()`). -/
def runCalculation (expenses : List EnhancedExpense) :
    Except CalcError BalanceCalculationResult := do
  let names := initializeUserNames expenses
  let st ← calcState expenses
  let userBalances := getUserBalances st
  let debtRelationships := getDebtRelationships names st.debtGraph
  let settlements := optimizeSettlements names st.debtGraph
  let totalExpenses := (expenses.map (·.amount)).sum
  let averagePerPerson ← divide totalExpenses (names.length : ℚ)
  .ok
    { userBalances := userBalances
      debtRelationships := debtRelationships
      settlements := settlements
      totalExpenses := totalExpenses
      summary :=
        { totalTransactions := settlements.length
          totalSettlementAmount := (settlements.map (·.amount)).sum
          averagePerPerson := averagePerPerson
          isBalanced := userBalances.all fun b => isZero b.balance } }

/-! ### Specification-side observers

The following definitions formalise the properties the specification claims;
they read the engine's outputs and check the claimed conditions. -/

/-- The shares the engine computes for an accepted expense (empty list on a
rejected one; every lemma using it carries an acceptance hypothesis). -/
def sharesOf (e : EnhancedExpense) : List ComputedShare :=
  match calculateShares e with
  | .ok s => s
  | .error _ => []

/-- Sum of the computed per-participant amounts of an expense. -/
def shareSum (e : EnhancedExpense) : ℚ := ((sharesOf e).map (·.amount)).sum

/-- Conservation check: does the sum of all reported net balances stay
within the 0.01 tolerance of zero? `none` when the calculation errors. -/
def conservationCheck (expenses : List EnhancedExpense) : Option Bool :=
  match runCalculation expenses with
  | .ok r => some (decide (|(r.userBalances.map (·.balance)).sum| ≤ 1 / 100))
  | .error _ => none

/-- A participant's balance after applying every settlement of the plan:
each settlement raises the debtor's balance and lowers the creditor's by
its amount (the direction that moves both toward zero). -/
def adjustedBalance (r : BalanceCalculationResult) (b : UserBalance) : ℚ :=
  b.balance
    + ((r.settlements.filter fun s => s.fromUser == b.userId).map (·.amount)).sum
    - ((r.settlements.filter fun s => s.toUser == b.userId).map (·.amount)).sum

/-- Settlement-correctness check: is every settlement-adjusted balance
within the 0.01 tolerance of zero? -/
def settlementCheck (expenses : List EnhancedExpense) : Option Bool :=
  match runCalculation expenses with
  | .ok r => some (r.userBalances.all fun b => decide (|adjustedBalance r b| ≤ 1 / 100))
  | .error _ => none

/-- Cross-check of the two balance derivations: for every known participant,
the accumulated balance (`totalPaid - totalShare`) and the debt-graph fold
must agree within the 0.01 tolerance. -/
def crossCheck (expenses : List EnhancedExpense) : Option Bool :=
  match calcState expenses with
  | .ok st =>
    let nets := computeNetBalances (initializeUserNames expenses) st.debtGraph
    some (nets.all fun p =>
      decide (|(((mget st.userBalances p.1).map (·.balance)).getD 0) - p.2| ≤ 1 / 100))
  | .error _ => none

/-- The creditor count of a calculation (net balance above tolerance). -/
def creditorCount (expenses : List EnhancedExpense) : ℕ :=
  match calcState expenses with
  | .ok st =>
    ((computeNetBalances (initializeUserNames expenses) st.debtGraph).filter
      fun p => decide (1 / 100 < p.2)).length
  | .error _ => 0

/-- The debtor count of a calculation (net balance below minus tolerance). -/
def debtorCount (expenses : List EnhancedExpense) : ℕ :=
  match calcState expenses with
  | .ok st =>
    ((computeNetBalances (initializeUserNames expenses) st.debtGraph).filter
      fun p => decide (p.2 < -(1 / 100))).length
  | .error _ => 0

/-- Settlement-count bound check, with the bound read in `ℤ` as the claim
writes it: `#settlements ≤ #creditors + #debtors - 1`. -/
def settlementBoundCheck (expenses : List EnhancedExpense) : Option Bool :=
  match runCalculation expenses with
  | .ok r =>
    some (decide ((r.settlements.length : ℤ) ≤
      (creditorCount expenses : ℤ) + (debtorCount expenses : ℤ) - 1))
  | .error _ => none

/-- The user identifiers present in the returned balance list. -/
def resultUserIds (expenses : List EnhancedExpense) : Option (List String) :=
  match runCalculation expenses with
  | .ok r => some (r.userBalances.map (·.userId))
  | .error _ => none

/-! ### Ghost specification functions

Closed-form descriptions of what the engine's folds accumulate; the
characterisation lemmas below prove the engine's maps agree with them. -/

/-- An expense mentions a user: as payer or as a listed participant. -/
def mentionsExp (e : EnhancedExpense) (uid : String) : Prop :=
  e.paidBy = uid ∨ uid ∈ e.participants.map (·.userId)

instance (e : EnhancedExpense) (uid : String) : Decidable (mentionsExp e uid) := by
  unfold mentionsExp
  infer_instance

/-- A user is mentioned somewhere in the expense list (the derived roster). -/
def mentioned (es : List EnhancedExpense) (uid : String) : Prop :=
  ∃ e ∈ es, mentionsExp e uid

instance (es : List EnhancedExpense) (uid : String) : Decidable (mentioned es uid) := by
  unfold mentioned
  infer_instance

/-- The exact total a user paid: the sum of the amounts of the expenses they
paid for. -/
def specPaid (es : List EnhancedExpense) (uid : String) : ℚ :=
  (es.map fun e => if e.paidBy = uid then e.amount else 0).sum

/-- The computed share of one user in one expense (zero when absent; a user
listed twice accumulates both entries, as in the source). -/
def shareOf (e : EnhancedExpense) (uid : String) : ℚ :=
  ((sharesOf e).map fun s => if s.userId = uid then s.amount else 0).sum

/-- The exact total share a user owes across the expense list. -/
def specShare (es : List EnhancedExpense) (uid : String) : ℚ :=
  (es.map fun e => shareOf e uid).sum

/-- The net position of a user encoded in one debtor row of the debt graph. -/
def netInner (d : String) (inner : List (String × ℚ)) (uid : String) : ℚ :=
  (inner.map fun q => (if q.1 = uid then q.2 else 0) - (if d = uid then q.2 else 0)).sum

/-- The net position of a user encoded in the whole debt graph: credits in,
debits out. -/
def netOf (dg : List (String × List (String × ℚ))) (uid : String) : ℚ :=
  (dg.map fun p => netInner p.1 p.2 uid).sum

/-- The closed form of the debt-graph fold: for each expense, the payer is
credited with the expense's computed share sum and every sharer is debited
with their own share. -/
def netSpec (es : List EnhancedExpense) (uid : String) : ℚ :=
  (es.map fun e => (if e.paidBy = uid then shareSum e else 0) - shareOf e uid).sum

/-- Characterisation of the user-balance map by ghost functions: no
duplicate keys, every present entry carries the claimed fields, and ghosts
vanish on absent users. -/
def UBchar (ub : List (String × UserBalance)) (fp fs : String → ℚ)
    (pres : String → Prop) : Prop :=
  (mkeys ub).Nodup ∧
  (∀ uid b, mget ub uid = some b →
    pres uid ∧ b.userId = uid ∧ b.totalPaid = fp uid ∧ b.totalShare = fs uid ∧
      b.balance = fp uid - fs uid) ∧
  (∀ uid, mget ub uid = none → ¬ pres uid ∧ fp uid = 0 ∧ fs uid = 0)

/-- Structural invariant of the debt graph: every edge has a known debtor
and creditor, a cent-representable weight, and is never a self-edge. -/
def DGinv (names : List (String × String))
    (dg : List (String × List (String × ℚ))) : Prop :=
  ∀ p ∈ dg, (mget names p.1).isSome = true ∧
    ∀ q ∈ p.2, IsCent q.2 ∧ p.1 ≠ q.1 ∧ (mget names q.1).isSome = true

/-- Per-key amount sum in a creditor/debtor worklist. -/
def amtOf (u : String) (l : List (String × ℚ)) : ℚ :=
  ((l.filter fun p => p.1 == u).map (·.2)).sum

/-- Total settled amount flowing out of a debtor in a settlement list. -/
def amtFrom (u : String) (l : List Settlement) : ℚ :=
  ((l.filter fun s => s.fromUser == u).map (·.amount)).sum

/-- Total settled amount flowing into a creditor in a settlement list. -/
def amtTo (u : String) (l : List Settlement) : ℚ :=
  ((l.filter fun s => s.toUser == u).map (·.amount)).sum

/-- Characterisation of a net-balance map by a ghost value function and a
presence predicate: no duplicate keys, present entries carry the ghost
value, absent users are not present. -/
def NBchar (m : List (String × ℚ)) (g : String → ℚ)
    (pres : String → Prop) : Prop :=
  (mkeys m).Nodup ∧
  (∀ uid v, mget m uid = some v → pres uid ∧ v = g uid) ∧
  (∀ uid, mget m uid = none → ¬ pres uid)

/-- Whether a fallible computation succeeded (a decidable acceptance
observer). -/
def isOkE {ε α : Type} : Except ε α → Bool
  | .ok _ => true
  | .error _ => false

/-- The exact sum of the reported net balances (`none` when the calculation
errors). -/
def conservationSum (expenses : List EnhancedExpense) : Option ℚ :=
  match runCalculation expenses with
  | .ok r => some ((r.userBalances.map (·.balance)).sum)
  | .error _ => none

/-- The residue of the greedy settlement loop on a calculation's inputs: the
creditor entries left unprocessed, the debtor entries left unprocessed, and
the settle steps dropped for being within tolerance (`none` when the
calculation errors). -/
def loopResidue (expenses : List EnhancedExpense) :
    Option (List (String × ℚ) × List (String × ℚ) × List Settlement) :=
  match calcState expenses with
  | .ok st =>
    let names := initializeUserNames expenses
    let netBalances := computeNetBalances names st.debtGraph
    let creditors := netBalances.filter fun p => decide (1 / 100 < p.2)
    let debtors := netBalances.filterMap fun p =>
      if p.2 < -(1 / 100) then some (p.1, |p.2|) else none
    let creditorsSorted := sortByDesc (·.2) creditors
    let debtorsSorted := sortByDesc (·.2) debtors
    let r := settleLoop names (creditorsSorted.length + debtorsSorted.length)
      creditorsSorted debtorsSorted
    some (r.2.1, r.2.2.1, r.2.2.2)
  | .error _ => none

/-- The creditor worklist `optimizeSettlements` builds (filtered, sorted). -/
def creditorsOf (names : List (String × String))
    (dg : List (String × List (String × ℚ))) : List (String × ℚ) :=
  sortByDesc (·.2)
    ((computeNetBalances names dg).filter fun p => decide (1 / 100 < p.2))

/-- The debtor worklist `optimizeSettlements` builds (filtered to absolute
values, sorted). -/
def debtorsOf (names : List (String × String))
    (dg : List (String × List (String × ℚ))) : List (String × ℚ) :=
  sortByDesc (·.2)
    ((computeNetBalances names dg).filterMap fun p =>
      if p.2 < -(1 / 100) then some (p.1, |p.2|) else none)

/-- The greedy loop exactly as `optimizeSettlements` invokes it. -/
def loopOf (names : List (String × String))
    (dg : List (String × List (String × ℚ))) :
    List Settlement × List (String × ℚ) × List (String × ℚ) × List Settlement :=
  settleLoop names ((creditorsOf names dg).length + (debtorsOf names dg).length)
    (creditorsOf names dg) (debtorsOf names dg)

/-! ### Concrete inputs used by the witnesses and counterexamples -/

/-- A 90-unit expense paid by one of three equal participants. -/
def sc1e : EnhancedExpense :=
  { amount := 90, paidBy := "a", paidByName := "Alice", splitType := .EQUAL
    participants := [⟨"a", "Alice", 0⟩, ⟨"b", "Bob", 0⟩, ⟨"c", "Cara", 0⟩] }

/-- The one-expense list around `sc1e`. -/
def sc1 : List EnhancedExpense := [sc1e]

/-- A 100-unit expense split by percentages 33.33/33.33/33.33 (the sum,
99.99, is accepted by the tolerance guard). -/
def pexp100 : EnhancedExpense :=
  { amount := 100, paidBy := "a", paidByName := "Alice"
    splitType := .PERCENTAGE
    participants := [⟨"a", "Alice", 3333 / 100⟩, ⟨"b", "Bob", 3333 / 100⟩,
      ⟨"c", "Cara", 3333 / 100⟩] }

/-- Two copies of the accepted 33.33-percentages expense. -/
def cex1 : List EnhancedExpense := [pexp100, pexp100]

/-- Three CUSTOM expenses whose greedy settlement drops two sub-cent steps,
leaving one creditor 0.02 short. -/
def cexC3 : List EnhancedExpense :=
  [{ amount := 5, paidBy := "c1", paidByName := "C1", splitType := .CUSTOM
     participants := [⟨"d1", "D1", 5⟩] },
   { amount := 2 / 100, paidBy := "u", paidByName := "U", splitType := .CUSTOM
     participants := [⟨"d1", "D1", 1 / 100⟩, ⟨"d2", "D2", 1 / 100⟩] },
   { amount := 2 / 100, paidBy := "c3", paidByName := "C3", splitType := .CUSTOM
     participants := [⟨"d2", "D2", 2 / 100⟩] }]

/-- A single self-paid expense: no creditors, no debtors, no settlements. -/
def cexC7 : List EnhancedExpense :=
  [{ amount := 10, paidBy := "a", paidByName := "Alice", splitType := .EQUAL
     participants := [⟨"a", "Alice", 0⟩] }]

/-! ### Lemmas about the currency arithmetic module -/

theorem isCent_round (q : ℚ) : IsCent (round q) := ⟨jsRound (q * 100), rfl⟩

theorem round_cent {q : ℚ} (h : IsCent q) : round q = q := by
  obtain ⟨k, rfl⟩ := h
  unfold round jsRound
  rw [div_mul_cancel₀ (h := by norm_num), Int.floor_int_add k ((1 : ℚ) / 2)]
  norm_num

theorem isCent_add {a b : ℚ} (ha : IsCent a) (hb : IsCent b) : IsCent (a + b) := by
  obtain ⟨j, rfl⟩ := ha; obtain ⟨k, rfl⟩ := hb
  exact ⟨j + k, by push_cast; ring⟩

theorem isCent_neg {a : ℚ} (ha : IsCent a) : IsCent (-a) := by
  obtain ⟨j, rfl⟩ := ha; exact ⟨-j, by push_cast; ring⟩

theorem isCent_sub {a b : ℚ} (ha : IsCent a) (hb : IsCent b) : IsCent (a - b) := by
  rw [sub_eq_add_neg]; exact isCent_add ha (isCent_neg hb)

theorem isCent_zero : IsCent 0 := ⟨0, by norm_num⟩

theorem isCent_sum {l : List ℚ} (h : ∀ q ∈ l, IsCent q) : IsCent l.sum := by
  induction l with
  | nil => simpa using isCent_zero
  | cons a t ih =>
    rw [List.sum_cons]
    exact isCent_add (h a (by simp)) (ih fun q hq => h q (by simp [hq]))

/-- A cent-representable quantity strictly inside the tolerance band is zero. -/
theorem cent_small_eq_zero {q : ℚ} (hc : IsCent q) (h : |q| < 1 / 100) : q = 0 := by
  obtain ⟨k, rfl⟩ := hc
  have h1 : |(k : ℚ)| < 1 := by
    have h2 : |(k : ℚ) / 100| * 100 < 1 / 100 * 100 :=
      mul_lt_mul_of_pos_right h (by norm_num)
    rw [abs_div, show |(100 : ℚ)| = 100 by norm_num, div_mul_cancel₀ _ (by norm_num : (100:ℚ) ≠ 0)] at h2
    linarith
  have h2 : |k| < 1 := by exact_mod_cast h1
  have h3 : k = 0 := by rw [abs_lt] at h2; omega
  simp [h3]

theorem add_cent {a b : ℚ} (ha : IsCent a) (hb : IsCent b) : add a b = a + b :=
  round_cent (isCent_add ha hb)

theorem subtract_cent {a b : ℚ} (ha : IsCent a) (hb : IsCent b) : subtract a b = a - b :=
  round_cent (isCent_sub ha hb)

theorem sum_set {l : List ℚ} {i : ℕ} (h : i < l.length) (x : ℚ) :
    (l.set i x).sum = l.sum - l.getD i 0 + x := by
  induction l generalizing i with
  | nil => simp at h
  | cons a t ih =>
    cases i with
    | zero => simp [List.set]; ring
    | succ j =>
      have hj : j < t.length := by simpa using h
      simp only [List.set, List.sum_cons, List.getD_cons_succ, ih hj]
      ring

theorem maxOf_mem {l : List ℚ} (h : l ≠ []) : maxOf l ∈ l := by
  match l, h with
  | a :: rest, _ =>
    suffices h2 : ∀ (b : ℚ) (t : List ℚ), t.foldl max b ∈ b :: t by
      simpa [maxOf] using h2 a rest
    intro b t
    induction t generalizing b with
    | nil => simp
    | cons c t2 ih =>
      have := ih (max b c)
      rcases max_choice b c with h3 | h3 <;>
        · rw [h3] at this
          simp only [List.foldl_cons]
          rw [h3]
          rcases List.mem_cons.1 this with h4 | h4 <;> simp [h4]

theorem getD_mem {l : List ℚ} {i : ℕ} (h : i < l.length) : l.getD i 0 ∈ l := by
  rw [List.getD_eq_getElem l 0 h]
  exact List.getElem_mem h

/-- Cent-representability of every part `adjustForRounding` returns. -/
theorem adjust_cent {total : ℚ} {l : List ℚ}
    (hl : ∀ q ∈ l, IsCent q) : ∀ q ∈ adjustForRounding total l, IsCent q := by
  intro q hq
  unfold adjustForRounding at hq
  dsimp only at hq
  split at hq
  · rcases List.mem_or_eq_of_mem_set hq with h2 | h2
    · exact hl q h2
    · exact h2 ▸ isCent_round _
  · exact hl q hq

theorem adjust_length {total : ℚ} {l : List ℚ} :
    (adjustForRounding total l).length = l.length := by
  unfold adjustForRounding
  dsimp only
  split
  · simp
  · rfl

/-- After the correction branch fires, the parts sum exactly to the total
(for cent-representable inputs). -/
theorem adjust_sum_exact {total : ℚ} {l : List ℚ} (hne : l ≠ [])
    (ht : IsCent total) (hl : ∀ q ∈ l, IsCent q)
    (h : 1 / 100 < |round (total - l.sum)|) :
    (adjustForRounding total l).sum = total := by
  have hsum : IsCent l.sum := isCent_sum hl
  have hdiff : round (total - l.sum) = total - l.sum :=
    round_cent (isCent_sub ht hsum)
  have hidx : l.indexOf (maxOf l) < l.length :=
    List.indexOf_lt_length.2 (maxOf_mem hne)
  unfold adjustForRounding
  rw [if_pos h, sum_set hidx]
  have hget : IsCent (l.getD (l.indexOf (maxOf l)) 0) := hl _ (getD_mem hidx)
  rw [hdiff, add_cent hget (isCent_sub ht hsum)]
  ring

/-- The parts `adjustForRounding` returns always sum to within one cent of
the total (for cent-representable inputs): in the correction branch the sum
becomes exact, otherwise the residual was already within tolerance. -/
theorem adjust_sum {total : ℚ} {l : List ℚ} (hne : l ≠ [])
    (ht : IsCent total) (hl : ∀ q ∈ l, IsCent q) :
    |(adjustForRounding total l).sum - total| ≤ 1 / 100 := by
  by_cases h : 1 / 100 < |round (total - l.sum)|
  · rw [adjust_sum_exact hne ht hl h]
    simp
  · have hdiff : round (total - l.sum) = total - l.sum :=
      round_cent (isCent_sub ht (isCent_sum hl))
    unfold adjustForRounding
    rw [if_neg h]
    rw [hdiff] at h
    rw [abs_sub_comm]
    linarith [not_lt.1 h]

theorem distribute_parts_sum (B : ℚ) (n r : ℕ) :
    ((List.range n).map fun (i : ℕ) =>
      if (i : ℤ) < (r : ℤ) then B + 1 / 100 else B).sum = n * B + (min r n : ℕ) / 100 := by
  induction n with
  | zero => simp
  | succ k ih =>
    rw [List.range_succ, List.map_append, List.sum_append, ih]
    by_cases h : k < r
    · have hc : ((k : ℤ) < (r : ℤ)) := by exact_mod_cast h
      have h1 : min r (k + 1) = k + 1 := by omega
      have h2 : min r k = k := by omega
      rw [h1, h2]
      simp only [List.map_cons, List.map_nil, if_pos hc, List.sum_cons, List.sum_nil]
      push_cast
      ring
    · have hc : ¬ ((k : ℤ) < (r : ℤ)) := by exact_mod_cast h
      have h1 : min r (k + 1) = min r k := by omega
      rw [h1]
      simp only [List.map_cons, List.map_nil, if_neg hc, List.sum_cons, List.sum_nil]
      push_cast
      ring

/-- Evaluation of `distribute` on a cent-representable non-negative total:
the parts are the base amount `total*100/n` rounded down to a cent, with one
extra cent on each of the first `c % n` parts. -/
theorem distribute_cents (c n : ℕ) (hn : 0 < n) :
    distribute ((c : ℚ) / 100) ((n : ℕ) : ℤ) =
      .ok ((List.range n).map fun (i : ℕ) =>
        if (i : ℤ) < ((c % n : ℕ) : ℤ) then (((c / n : ℕ) : ℤ) : ℚ) / 100 + 1 / 100
        else (((c / n : ℕ) : ℤ) : ℚ) / 100) := by
  have hn0 : ¬ (((n : ℕ) : ℤ) ≤ 0) := not_le.2 (by exact_mod_cast hn)
  have ht0 : ¬ ((c : ℚ) / 100 < 0) := not_lt.2 (by positivity)
  unfold distribute
  rw [if_neg hn0, if_neg ht0]
  dsimp only
  have hF : ⌊(c : ℚ) / 100 * 100 / ((((n : ℕ) : ℤ)) : ℚ)⌋ = ((c / n : ℕ) : ℤ) := by
    have h1 : (c : ℚ) / 100 * 100 / ((((n : ℕ) : ℤ)) : ℚ) = (((c : ℤ)) : ℚ) / ((n : ℕ) : ℚ) := by
      push_cast
      ring
    rw [h1, Rat.floor_intCast_div_natCast]
    norm_cast
  rw [hF]
  have hrem_in : (c : ℚ) / 100 - (((c / n : ℕ) : ℤ) : ℚ) / 100 * ((((n : ℕ) : ℤ)) : ℚ) =
      (((c % n : ℕ) : ℤ) : ℚ) / 100 := by
    have hdm : n * (c / n) + c % n = c := Nat.div_add_mod c n
    have hq : ((((n : ℕ) : ℤ)) : ℚ) * (((c / n : ℕ) : ℤ) : ℚ) + (((c % n : ℕ) : ℤ) : ℚ) =
        (c : ℚ) := by
      exact_mod_cast congrArg (fun x : ℕ => (x : ℚ)) hdm
    linear_combination (-1 / 100 : ℚ) * hq
  rw [hrem_in]
  have e5 : round ((((c % n : ℕ) : ℤ) : ℚ) / 100) = (((c % n : ℕ) : ℤ) : ℚ) / 100 :=
    round_cent ⟨((c % n : ℕ) : ℤ), rfl⟩
  rw [e5]
  have e6 : jsRound ((((c % n : ℕ) : ℤ) : ℚ) / 100 * 100) = ((c % n : ℕ) : ℤ) := by
    unfold jsRound
    rw [div_mul_cancel₀ _ (by norm_num : (100 : ℚ) ≠ 0), Int.floor_int_add]
    norm_num
  rw [e6]
  have e7 : round ((((c / n : ℕ) : ℤ) : ℚ) / 100 + 1 / 100) =
      (((c / n : ℕ) : ℤ) : ℚ) / 100 + 1 / 100 :=
    round_cent ⟨((c / n : ℕ) : ℤ) + 1, by push_cast; ring⟩
  rw [e7, Int.toNat_natCast]

/-- Full specification of `distribute` on a cent-representable non-negative
total: one part per share, exact reconstruction of the total, non-negative
parts, and the explicit base-plus-remainder-cent shape. -/
theorem distribute_spec (c n : ℕ) (hn : 1 ≤ n) :
    ∃ l, distribute ((c : ℚ) / 100) ((n : ℕ) : ℤ) = .ok l ∧
      l.length = n ∧
      l.sum = (c : ℚ) / 100 ∧
      (∀ x ∈ l, 0 ≤ x) ∧
      l = (List.range n).map fun (i : ℕ) =>
        if i < c % n then (⌊(c : ℚ) / 100 * 100 / (n : ℚ)⌋ : ℚ) / 100 + 1 / 100
        else (⌊(c : ℚ) / 100 * 100 / (n : ℚ)⌋ : ℚ) / 100 := by
  refine ⟨_, distribute_cents c n hn, by simp, ?_, ?_, ?_⟩
  · rw [distribute_parts_sum ((((c / n : ℕ) : ℤ) : ℚ) / 100) n (c % n)]
    have hmin : min (c % n) n = c % n := min_eq_left (Nat.mod_lt c hn).le
    rw [hmin]
    have hdm : n * (c / n) + c % n = c := Nat.div_add_mod c n
    have hq : ((n * (c / n) + c % n : ℕ) : ℚ) = (c : ℚ) := by exact_mod_cast hdm
    push_cast at hq
    rw [Int.cast_natCast]
    linear_combination (1 / 100 : ℚ) * hq
  · intro x hx
    rw [List.mem_map] at hx
    obtain ⟨i, _, rfl⟩ := hx
    have hb : (0 : ℚ) ≤ (((c / n : ℕ) : ℤ) : ℚ) / 100 := by positivity
    by_cases h : (i : ℤ) < ((c % n : ℕ) : ℤ)
    · rw [if_pos h]; linarith
    · rw [if_neg h]; exact hb
  · apply List.map_congr_left
    intro i _
    have hflr : ⌊(c : ℚ) / 100 * 100 / (n : ℚ)⌋ = ((c / n : ℕ) : ℤ) := by
      have h1 : (c : ℚ) / 100 * 100 / (n : ℚ) = ((c : ℤ) : ℚ) / ((n : ℕ) : ℚ) := by
        push_cast
        ring
      rw [h1, Rat.floor_intCast_div_natCast]
      norm_cast
    have hcond : ((i : ℤ) < ((c % n : ℕ) : ℤ)) ↔ i < c % n := by exact_mod_cast Iff.rfl
    rw [hflr]
    by_cases h : i < c % n
    · rw [if_pos (hcond.2 h), if_pos h]
    · rw [if_neg (fun hc => h (hcond.1 hc)), if_neg h]

/-- Acceptance shape of `distributeByPercentages`. -/
theorem distributeByPercentages_ok {total : ℚ} {ps : List ℚ}
    (h : ¬ (1 / 100 < |ps.sum - 100|)) :
    distributeByPercentages total ps =
      .ok (adjustForRounding total (ps.map fun pct => multiply total (pct / 100))) := by
  unfold distributeByPercentages
  rw [if_neg h]

/-- A percentage list accepted by `distributeByPercentages` is non-empty. -/
theorem percentages_ne_nil {ps : List ℚ} (h : ¬ (1 / 100 < |ps.sum - 100|)) :
    ps ≠ [] := by
  intro hnil
  subst hnil
  simp at h
  linarith [h]

/-- Specification of `distributeByPercentages` on an accepted call with a
cent-representable total: one part per percentage, cent-representable parts,
a total reconstructed to within one cent, and exact reconstruction whenever
the rounding residual exceeds the tolerance. -/
theorem distributeByPercentages_spec {total : ℚ} {ps : List ℚ} {l : List ℚ}
    (c : ℤ) (hc : total = (c : ℚ) / 100)
    (hok : distributeByPercentages total ps = .ok l) :
    l.length = ps.length ∧ (∀ q ∈ l, IsCent q) ∧ |l.sum - total| ≤ 1 / 100 ∧
      (1 / 100 < |round (total - (ps.map fun pct => multiply total (pct / 100)).sum)| →
        l.sum = total) := by
  have hguard : ¬ (1 / 100 < |ps.sum - 100|) := by
    intro h
    rw [distributeByPercentages, if_pos h] at hok
    exact Except.noConfusion hok
  rw [distributeByPercentages_ok hguard] at hok
  obtain rfl : adjustForRounding total (ps.map fun pct => multiply total (pct / 100)) = l :=
    Except.ok.inj hok
  have hcent : ∀ q ∈ ps.map fun pct => multiply total (pct / 100), IsCent q := by
    intro q hq
    rw [List.mem_map] at hq
    obtain ⟨p, _, rfl⟩ := hq
    exact isCent_round _
  have hne : (ps.map fun pct => multiply total (pct / 100)) ≠ [] := by
    intro hnil
    exact percentages_ne_nil hguard (List.map_eq_nil_iff.1 hnil)
  refine ⟨?_, adjust_cent hcent, ?_, fun h => adjust_sum_exact hne ⟨c, hc⟩ hcent h⟩
  · rw [adjust_length, List.length_map]
  · exact adjust_sum hne ⟨c, hc⟩ hcent

/-- Acceptance shape of `distributeByShares`. -/
theorem distributeByShares_ok {total : ℚ} {ws : List ℚ} (h : ¬ (ws.sum = 0)) :
    distributeByShares total ws =
      .ok (adjustForRounding total (ws.map fun w => multiply total (w / ws.sum))) := by
  unfold distributeByShares
  rw [if_neg h]

/-- Specification of `distributeByShares` on an accepted call with a
cent-representable total (the weight list is non-empty since its sum is
non-zero). -/
theorem distributeByShares_spec {total : ℚ} {ws : List ℚ} {l : List ℚ}
    (c : ℤ) (hc : total = (c : ℚ) / 100)
    (hok : distributeByShares total ws = .ok l) :
    l.length = ws.length ∧ (∀ q ∈ l, IsCent q) ∧ |l.sum - total| ≤ 1 / 100 := by
  have hguard : ¬ (ws.sum = 0) := by
    intro h
    rw [distributeByShares] at hok
    rw [if_pos h] at hok
    exact Except.noConfusion hok
  rw [distributeByShares_ok hguard] at hok
  obtain rfl : adjustForRounding total (ws.map fun w => multiply total (w / ws.sum)) = l :=
    Except.ok.inj hok
  have hcent : ∀ q ∈ ws.map fun w => multiply total (w / ws.sum), IsCent q := by
    intro q hq
    rw [List.mem_map] at hq
    obtain ⟨p, _, rfl⟩ := hq
    exact isCent_round _
  have hne : (ws.map fun w => multiply total (w / ws.sum)) ≠ [] := by
    intro hnil
    have : ws = [] := List.map_eq_nil_iff.1 hnil
    subst this
    simp at hguard
  exact ⟨by rw [adjust_length, List.length_map], adjust_cent hcent,
    adjust_sum hne ⟨c, hc⟩ hcent⟩

/-! ### Lemmas about per-expense share computation -/

theorem distribute_ok_cond {t : ℚ} {n : ℤ} {l : List ℚ}
    (h : distribute t n = .ok l) : 0 < n ∧ 0 ≤ t := by
  unfold distribute at h
  by_cases h1 : n ≤ 0
  · rw [if_pos h1] at h
    exact Except.noConfusion h
  · rw [if_neg h1] at h
    by_cases h2 : t < 0
    · rw [if_pos h2] at h
      exact Except.noConfusion h
    · exact ⟨not_le.1 h1, not_lt.1 h2⟩

theorem distribute_ok_length {t : ℚ} {n : ℤ} {l : List ℚ}
    (h : distribute t n = .ok l) : l.length = n.toNat := by
  obtain ⟨h1, h2⟩ := distribute_ok_cond h
  unfold distribute at h
  rw [if_neg (not_le.2 h1), if_neg (not_lt.2 h2)] at h
  obtain rfl := (Except.ok.inj h).symm
  simp

theorem distribute_ok_cent {t : ℚ} {n : ℤ} {l : List ℚ}
    (h : distribute t n = .ok l) : ∀ q ∈ l, IsCent q := by
  obtain ⟨h1, h2⟩ := distribute_ok_cond h
  unfold distribute at h
  rw [if_neg (not_le.2 h1), if_neg (not_lt.2 h2)] at h
  obtain rfl := (Except.ok.inj h).symm
  intro q hq
  rw [List.mem_map] at hq
  obtain ⟨i, _, rfl⟩ := hq
  by_cases hi : (i : ℤ) < jsRound (round (t - (⌊t * 100 / (n : ℚ)⌋ : ℚ) / 100 * (n : ℚ)) * 100)
  · rw [if_pos hi]
    exact isCent_round _
  · rw [if_neg hi]
    exact ⟨⌊t * 100 / (n : ℚ)⌋, rfl⟩

theorem zipAmounts_amounts {ps : List ParticipantShare} {amts : List ℚ}
    (h : ps.length = amts.length) :
    (zipAmounts ps amts).map (·.amount) = amts := by
  induction ps generalizing amts with
  | nil =>
    cases amts with
    | nil => rfl
    | cons a r => simp at h
  | cons p t ih =>
    cases amts with
    | nil => simp at h
    | cons a r =>
      simp only [zipAmounts, List.zipWith_cons_cons, List.map_cons]
      exact congrArg (List.cons a) (ih (by simpa using h))

theorem zipAmounts_userIds {ps : List ParticipantShare} {amts : List ℚ}
    (h : ps.length = amts.length) :
    (zipAmounts ps amts).map (·.userId) = ps.map (·.userId) := by
  induction ps generalizing amts with
  | nil => rfl
  | cons p t ih =>
    cases amts with
    | nil => simp at h
    | cons a r =>
      simp only [zipAmounts, List.zipWith_cons_cons, List.map_cons]
      exact congrArg (List.cons p.userId) (ih (by simpa using h))

theorem calculateEqualShares_ok {e : EnhancedExpense} {shares : List ComputedShare}
    (h : calculateEqualShares e = .ok shares) :
    ∃ amts, distribute e.amount ((e.participants.length : ℕ) : ℤ) = .ok amts ∧
      shares = zipAmounts e.participants amts ∧
      amts.length = e.participants.length := by
  unfold calculateEqualShares at h
  cases hd : distribute e.amount ((e.participants.length : ℕ) : ℤ) with
  | error err =>
    rw [hd] at h
    exact Except.noConfusion h
  | ok amts =>
    rw [hd] at h
    refine ⟨amts, rfl, (Except.ok.inj h).symm, ?_⟩
    rw [distribute_ok_length hd, Int.toNat_natCast]

theorem calculatePercentageShares_ok {e : EnhancedExpense} {shares : List ComputedShare}
    (h : calculatePercentageShares e = .ok shares) :
    ∃ amts, distributeByPercentages e.amount (e.participants.map (·.value)) = .ok amts ∧
      shares = zipAmounts e.participants amts := by
  unfold calculatePercentageShares at h
  cases hd : distributeByPercentages e.amount (e.participants.map (·.value)) with
  | error err =>
    rw [hd] at h
    exact Except.noConfusion h
  | ok amts =>
    rw [hd] at h
    exact ⟨amts, rfl, (Except.ok.inj h).symm⟩

theorem calculateWeightedShares_ok {e : EnhancedExpense} {shares : List ComputedShare}
    (h : calculateWeightedShares e = .ok shares) :
    ∃ amts, distributeByShares e.amount (e.participants.map (·.value)) = .ok amts ∧
      shares = zipAmounts e.participants amts := by
  unfold calculateWeightedShares at h
  cases hd : distributeByShares e.amount (e.participants.map (·.value)) with
  | error err =>
    rw [hd] at h
    exact Except.noConfusion h
  | ok amts =>
    rw [hd] at h
    exact ⟨amts, rfl, (Except.ok.inj h).symm⟩

theorem calculateCustomShares_ok {e : EnhancedExpense} {shares : List ComputedShare}
    (h : calculateCustomShares e = .ok shares) :
    isEqual ((e.participants.map (·.value)).sum) e.amount = true ∧
      shares = e.participants.map fun s => ⟨s.userId, s.name, s.value, round s.value⟩ := by
  unfold calculateCustomShares at h
  by_cases hg : isEqual ((e.participants.map (·.value)).sum) e.amount = true
  · rw [if_pos hg] at h
    exact ⟨hg, (Except.ok.inj h).symm⟩
  · rw [if_neg hg] at h
    exact Except.noConfusion h

theorem distributeByPercentages_ok_length {t : ℚ} {ps l : List ℚ}
    (h : distributeByPercentages t ps = .ok l) : l.length = ps.length := by
  have hguard : ¬ (1 / 100 < |ps.sum - 100|) := by
    intro hg
    rw [distributeByPercentages, if_pos hg] at h
    exact Except.noConfusion h
  rw [distributeByPercentages_ok hguard] at h
  obtain rfl := (Except.ok.inj h).symm
  rw [adjust_length, List.length_map]

theorem distributeByShares_ok_length {t : ℚ} {ws l : List ℚ}
    (h : distributeByShares t ws = .ok l) : l.length = ws.length := by
  have hguard : ¬ (ws.sum = 0) := by
    intro hg
    rw [distributeByShares, if_pos hg] at h
    exact Except.noConfusion h
  rw [distributeByShares_ok hguard] at h
  obtain rfl := (Except.ok.inj h).symm
  rw [adjust_length, List.length_map]

/-- The computed shares carry exactly the participants' user identifiers, in
order, whatever the split type. -/
theorem calculateShares_userIds {e : EnhancedExpense} {shares : List ComputedShare}
    (hok : calculateShares e = .ok shares) :
    shares.map (·.userId) = e.participants.map (·.userId) := by
  unfold calculateShares at hok
  cases hs : e.splitType <;> rw [hs] at hok
  · obtain ⟨amts, hd, rfl, hlen⟩ := calculateEqualShares_ok hok
    exact zipAmounts_userIds hlen.symm
  · obtain ⟨amts, hd, rfl⟩ := calculatePercentageShares_ok hok
    have hlen := distributeByPercentages_ok_length hd
    exact zipAmounts_userIds (by simpa using hlen.symm)
  · obtain ⟨hg, rfl⟩ := calculateCustomShares_ok hok
    simp
  · obtain ⟨amts, hd, rfl⟩ := calculateWeightedShares_ok hok
    have hlen := distributeByShares_ok_length hd
    exact zipAmounts_userIds (by simpa using hlen.symm)

/-! ### Lemmas about the map model -/

theorem mget_mset_self {α : Type} (m : List (String × α)) (k : String) (v : α) :
    mget (mset m k v) k = some v := by
  induction m with
  | nil => simp [mset, mget]
  | cons p rest ih =>
    by_cases h : p.1 = k
    · simp [mset, h, mget]
    · rw [mset, if_neg h, mget, if_neg h]
      exact ih

theorem mget_mset_ne {α : Type} (m : List (String × α)) {k u : String} (v : α)
    (h : u ≠ k) : mget (mset m k v) u = mget m u := by
  induction m with
  | nil => simp [mset, mget, Ne.symm h]
  | cons p rest ih =>
    by_cases hp : p.1 = k
    · subst hp
      rw [mset, if_pos rfl, mget, if_neg (Ne.symm h), mget, if_neg (Ne.symm h)]
    · rw [mset, if_neg hp, mget, mget]
      by_cases hu : p.1 = u
      · rw [if_pos hu, if_pos hu]
      · rw [if_neg hu, if_neg hu]
        exact ih

theorem mget_isSome_iff_mem {α : Type} {m : List (String × α)} {k : String} :
    (mget m k).isSome ↔ k ∈ mkeys m := by
  induction m with
  | nil => simp [mget, mkeys]
  | cons p rest ih =>
    by_cases h : p.1 = k
    · simp [mget, h, mkeys]
    · rw [mget, if_neg h]
      rw [show mkeys (p :: rest) = p.1 :: mkeys rest from rfl]
      rw [List.mem_cons]
      constructor
      · intro hh
        exact Or.inr (ih.1 hh)
      · rintro (hh | hh)
        · exact absurd hh.symm h
        · exact ih.2 hh

theorem mget_none_iff_not_mem {α : Type} {m : List (String × α)} {k : String} :
    mget m k = none ↔ k ∉ mkeys m := by
  rw [← mget_isSome_iff_mem]
  cases mget m k <;> simp

theorem mkeys_mset_present {α : Type} {m : List (String × α)} {k : String}
    (v : α) (h : (mget m k).isSome) : mkeys (mset m k v) = mkeys m := by
  induction m with
  | nil => simp [mget] at h
  | cons p rest ih =>
    by_cases hp : p.1 = k
    · simp [mset, hp, mkeys]
    · rw [mget, if_neg hp] at h
      rw [mset, if_neg hp]
      rw [show mkeys (p :: mset rest k v) = p.1 :: mkeys (mset rest k v) from rfl]
      rw [show mkeys (p :: rest) = p.1 :: mkeys rest from rfl]
      rw [ih h]

theorem mkeys_mset_absent {α : Type} {m : List (String × α)} {k : String}
    (v : α) (h : mget m k = none) : mkeys (mset m k v) = mkeys m ++ [k] := by
  induction m with
  | nil => simp [mset, mkeys]
  | cons p rest ih =>
    by_cases hp : p.1 = k
    · rw [mget, if_pos hp] at h
      exact Option.noConfusion h
    · rw [mget, if_neg hp] at h
      rw [mset, if_neg hp]
      rw [show mkeys (p :: mset rest k v) = p.1 :: mkeys (mset rest k v) from rfl]
      rw [show mkeys (p :: rest) = p.1 :: mkeys rest from rfl]
      rw [ih h, List.cons_append]

theorem nodup_mset {α : Type} {m : List (String × α)} (hnd : (mkeys m).Nodup)
    (k : String) (v : α) : (mkeys (mset m k v)).Nodup := by
  cases h : mget m k with
  | some w => rw [mkeys_mset_present v (by rw [h]; rfl)]; exact hnd
  | none =>
    rw [mkeys_mset_absent v h]
    refine List.Nodup.append hnd (List.nodup_singleton k) ?_
    intro a ha hb
    rw [List.mem_singleton] at hb
    subst hb
    exact mget_none_iff_not_mem.1 h ha

theorem mget_of_mem_nodup {α : Type} {m : List (String × α)}
    (hnd : (mkeys m).Nodup) {p : String × α} (hp : p ∈ m) :
    mget m p.1 = some p.2 := by
  induction m with
  | nil => simp at hp
  | cons q rest ih =>
    rcases List.mem_cons.1 hp with h | h
    · subst h
      simp [mget]
    · have hq : q.1 ≠ p.1 := by
        intro he
        have h1 : q.1 ∈ mkeys rest := by
          rw [he]
          exact List.mem_map_of_mem _ h
        rw [mkeys, List.map_cons] at hnd
        exact (List.nodup_cons.1 hnd).1 h1
      rw [mget, if_neg hq]
      exact ih (by rw [mkeys, List.map_cons] at hnd; exact (List.nodup_cons.1 hnd).2) h

/-! ### Sum helper lemmas -/

theorem sum_map_add {α : Type} (l : List α) (f g : α → ℚ) :
    (l.map fun x => f x + g x).sum = (l.map f).sum + (l.map g).sum := by
  induction l with
  | nil => simp
  | cons a t ih => simp [ih]; ring

theorem sum_map_sub {α : Type} (l : List α) (f g : α → ℚ) :
    (l.map fun x => f x - g x).sum = (l.map f).sum - (l.map g).sum := by
  induction l with
  | nil => simp
  | cons a t ih => simp [ih]; ring

theorem sum_ite_not_mem {ks : List String} {u : String} (h : u ∉ ks) (a : ℚ) :
    (ks.map fun k => if u = k then a else 0).sum = 0 := by
  induction ks with
  | nil => simp
  | cons b t ih =>
    have hb : u ≠ b := fun hc => h (hc ▸ List.mem_cons_self b t)
    rw [List.map_cons, List.sum_cons, if_neg hb, ih fun hc => h (List.mem_cons_of_mem b hc)]
    ring

theorem sum_ite_mem {ks : List String} {u : String} (hmem : u ∈ ks)
    (hnd : ks.Nodup) (a : ℚ) :
    (ks.map fun k => if u = k then a else 0).sum = a := by
  induction ks with
  | nil => simp at hmem
  | cons b t ih =>
    rcases List.mem_cons.1 hmem with h | h
    · subst h
      rw [List.map_cons, List.sum_cons, if_pos rfl,
        sum_ite_not_mem (List.nodup_cons.1 hnd).1 a]
      ring
    · have hb : u ≠ b := by
        intro hc
        subst hc
        exact (List.nodup_cons.1 hnd).1 h
      rw [List.map_cons, List.sum_cons, if_neg hb, ih h (List.nodup_cons.1 hnd).2]
      ring

theorem sum_comm_map {α β : Type} (ks : List α) (es : List β) (g : β → α → ℚ) :
    (ks.map fun k => (es.map fun e => g e k).sum).sum =
      (es.map fun e => (ks.map fun k => g e k).sum).sum := by
  induction es with
  | nil => simp
  | cons e t ih =>
    simp only [List.map_cons, List.sum_cons]
    rw [← ih, ← sum_map_add]

/-! ### Characterisation of the balance-map updates -/

theorem UBchar_congr {ub : List (String × UserBalance)}
    {fp fp2 fs fs2 : String → ℚ} {pres pres2 : String → Prop}
    (h : UBchar ub fp fs pres) (hfp : ∀ u, fp u = fp2 u)
    (hfs : ∀ u, fs u = fs2 u) (hpres : ∀ u, pres u ↔ pres2 u) :
    UBchar ub fp2 fs2 pres2 := by
  obtain ⟨hnd, hsome, hnone⟩ := h
  refine ⟨hnd, ?_, ?_⟩
  · intro uid b hb
    obtain ⟨h1, h2, h3, h4, h5⟩ := hsome uid b hb
    exact ⟨(hpres uid).1 h1, h2, hfp uid ▸ h3, hfs uid ▸ h4,
      hfp uid ▸ hfs uid ▸ h5⟩
  · intro uid hb
    obtain ⟨h1, h2, h3⟩ := hnone uid hb
    exact ⟨fun hc => h1 ((hpres uid).2 hc), hfp uid ▸ h2, hfs uid ▸ h3⟩

theorem UBchar_isSome {ub : List (String × UserBalance)}
    {fp fs : String → ℚ} {pres : String → Prop} (h : UBchar ub fp fs pres)
    (uid : String) : (mget ub uid).isSome ↔ pres uid := by
  obtain ⟨-, hsome, hnone⟩ := h
  cases hb : mget ub uid with
  | some b => simpa using (hsome uid b hb).1
  | none => simpa using (hnone uid hb).1

theorem UBchar_nil : UBchar [] (fun _ => 0) (fun _ => 0) (fun _ => False) := by
  refine ⟨by simp [mkeys], ?_, ?_⟩
  · intro uid b hb
    exact Option.noConfusion hb
  · intro uid hb
    exact ⟨id, rfl, rfl⟩

/-- Effect of a payer update: `totalPaid` of the touched user grows by the
paid amount (exactly, at cent precision — a zero amount is skipped by the
source's truthiness check, but skipping and adding zero agree), all other
entries unchanged. -/
theorem updateUserBalance_paid_char {names : List (String × String)}
    {ub : List (String × UserBalance)} {fp fs : String → ℚ}
    {pres : String → Prop} (h : UBchar ub fp fs pres)
    (hcent : ∀ uid, IsCent (fp uid) ∧ IsCent (fs uid))
    (u : String) {p : ℚ} (hpc : IsCent p) :
    UBchar (updateUserBalance names ub u (some p) none)
      (fun uid => if uid = u then fp uid + p else fp uid) fs
      (fun uid => uid = u ∨ pres uid) := by
  obtain ⟨hnd, hsome, hnone⟩ := h
  have hexp : ((mget ub u).getD (freshUserBalance names u)).totalPaid = fp u := by
    cases hb : mget ub u with
    | some b => exact (hsome u b hb).2.2.1
    | none => exact ((hnone u hb).2.1).symm
  have hexs : ((mget ub u).getD (freshUserBalance names u)).totalShare = fs u := by
    cases hb : mget ub u with
    | some b => exact (hsome u b hb).2.2.2.1
    | none => exact ((hnone u hb).2.2).symm
  have htp : (if p ≠ 0 then
        add ((mget ub u).getD (freshUserBalance names u)).totalPaid p
      else ((mget ub u).getD (freshUserBalance names u)).totalPaid) = fp u + p := by
    by_cases hp0 : p = 0
    · rw [if_neg (by simpa using hp0), hexp, hp0, add_zero]
    · rw [if_pos hp0, add_cent (hexp ▸ (hcent u).1) hpc, hexp]
  unfold updateUserBalance
  dsimp only
  refine ⟨nodup_mset hnd u _, ?_, ?_⟩
  · intro uid b hb
    by_cases hu : uid = u
    · subst hu
      rw [mget_mset_self] at hb
      obtain rfl := (Option.some.inj hb).symm
      refine ⟨Or.inl rfl, rfl, ?_, ?_, ?_⟩
      · dsimp only
        rw [if_pos (rfl : uid = uid)]
        exact htp
      · exact hexs
      · dsimp only
        rw [if_pos (rfl : uid = uid), htp, hexs,
          subtract_cent (isCent_add (hcent uid).1 hpc) (hcent uid).2]
    · rw [mget_mset_ne _ _ hu] at hb
      obtain ⟨h1, h2, h3, h4, h5⟩ := hsome uid b hb
      exact ⟨Or.inr h1, h2, by dsimp only; rw [if_neg hu]; exact h3, h4,
        by dsimp only; rw [if_neg hu]; exact h5⟩
  · intro uid hb
    by_cases hu : uid = u
    · subst hu
      rw [mget_mset_self] at hb
      exact Option.noConfusion hb
    · rw [mget_mset_ne _ _ hu] at hb
      obtain ⟨h1, h2, h3⟩ := hnone uid hb
      exact ⟨fun hc => hc.elim hu h1, by dsimp only; rw [if_neg hu]; exact h2, h3⟩

/-- Effect of a share update: `totalShare` of the touched user grows by the
owed amount, all other entries unchanged. -/
theorem updateUserBalance_owed_char {names : List (String × String)}
    {ub : List (String × UserBalance)} {fp fs : String → ℚ}
    {pres : String → Prop} (h : UBchar ub fp fs pres)
    (hcent : ∀ uid, IsCent (fp uid) ∧ IsCent (fs uid))
    (u : String) {w : ℚ} (hwc : IsCent w) :
    UBchar (updateUserBalance names ub u none (some w))
      fp (fun uid => if uid = u then fs uid + w else fs uid)
      (fun uid => uid = u ∨ pres uid) := by
  obtain ⟨hnd, hsome, hnone⟩ := h
  have hexp : ((mget ub u).getD (freshUserBalance names u)).totalPaid = fp u := by
    cases hb : mget ub u with
    | some b => exact (hsome u b hb).2.2.1
    | none => exact ((hnone u hb).2.1).symm
  have hexs : ((mget ub u).getD (freshUserBalance names u)).totalShare = fs u := by
    cases hb : mget ub u with
    | some b => exact (hsome u b hb).2.2.2.1
    | none => exact ((hnone u hb).2.2).symm
  have hts : (if w ≠ 0 then
        add ((mget ub u).getD (freshUserBalance names u)).totalShare w
      else ((mget ub u).getD (freshUserBalance names u)).totalShare) = fs u + w := by
    by_cases hw0 : w = 0
    · rw [if_neg (by simpa using hw0), hexs, hw0, add_zero]
    · rw [if_pos hw0, add_cent (hexs ▸ (hcent u).2) hwc, hexs]
  unfold updateUserBalance
  dsimp only
  refine ⟨nodup_mset hnd u _, ?_, ?_⟩
  · intro uid b hb
    by_cases hu : uid = u
    · subst hu
      rw [mget_mset_self] at hb
      obtain rfl := (Option.some.inj hb).symm
      refine ⟨Or.inl rfl, rfl, hexp, ?_, ?_⟩
      · dsimp only
        rw [if_pos (rfl : uid = uid)]
        exact hts
      · dsimp only
        rw [if_pos (rfl : uid = uid), hexp, hts,
          subtract_cent (hcent uid).1 (isCent_add (hcent uid).2 hwc)]
    · rw [mget_mset_ne _ _ hu] at hb
      obtain ⟨h1, h2, h3, h4, h5⟩ := hsome uid b hb
      exact ⟨Or.inr h1, h2, h3, by dsimp only; rw [if_neg hu]; exact h4,
        by dsimp only; rw [if_neg hu]; exact h5⟩
  · intro uid hb
    by_cases hu : uid = u
    · subst hu
      rw [mget_mset_self] at hb
      exact Option.noConfusion hb
    · rw [mget_mset_ne _ _ hu] at hb
      obtain ⟨h1, h2, h3⟩ := hnone uid hb
      exact ⟨fun hc => hc.elim hu h1, h2, by dsimp only; rw [if_neg hu]; exact h3⟩

/-! ### Characterisation of the debt-graph updates -/

theorem mget_some_mem {α : Type} {m : List (String × α)} {k : String} {v : α}
    (h : mget m k = some v) : (k, v) ∈ m := by
  induction m with
  | nil => exact Option.noConfusion h
  | cons p rest ih =>
    by_cases hp : p.1 = k
    · rw [mget, if_pos hp] at h
      obtain rfl := Option.some.inj h
      have hpe : (k, p.2) = p := by
        obtain ⟨p1, p2⟩ := p
        cases hp
        rfl
      exact List.mem_cons.2 (Or.inl hpe)
    · rw [mget, if_neg hp] at h
      exact List.mem_cons_of_mem p (ih h)

theorem mem_mset {α : Type} {m : List (String × α)} {k : String} {v : α}
    {p : String × α} (hp : p ∈ mset m k v) : p ∈ m ∨ p = (k, v) := by
  induction m with
  | nil => simpa [mset] using hp
  | cons q rest ih =>
    by_cases hq : q.1 = k
    · rw [mset, if_pos hq] at hp
      rcases List.mem_cons.1 hp with h | h
      · exact Or.inr h
      · exact Or.inl (List.mem_cons_of_mem q h)
    · rw [mset, if_neg hq] at hp
      rcases List.mem_cons.1 hp with h | h
      · exact Or.inl (h ▸ List.mem_cons_self q rest)
      · rcases ih h with h2 | h2
        · exact Or.inl (List.mem_cons_of_mem q h2)
        · exact Or.inr h2

theorem netInner_mset (d : String) (inner : List (String × ℚ))
    (cr uid : String) (v : ℚ) :
    netInner d (mset inner cr v) uid =
      netInner d inner uid +
        ((if cr = uid then v - (mget inner cr).getD 0 else 0)
          - (if d = uid then v - (mget inner cr).getD 0 else 0)) := by
  induction inner with
  | nil =>
    by_cases h1 : cr = uid <;> by_cases h2 : d = uid <;>
      simp [netInner, mset, mget, h1, h2]
  | cons q rest ih =>
    by_cases hq : q.1 = cr
    · simp only [mset, if_pos hq, netInner, List.map_cons, List.sum_cons,
        mget, hq]
      by_cases h1 : cr = uid <;> by_cases h2 : d = uid <;>
        simp [h1, h2] <;> ring
    · simp only [mset, if_neg hq, netInner, List.map_cons, List.sum_cons,
        mget, if_neg hq] at ih ⊢
      rw [ih]
      ring

theorem netOf_mset_row (dg : List (String × List (String × ℚ)))
    (d uid : String) (row : List (String × ℚ)) :
    netOf (mset dg d row) uid =
      netOf dg uid + netInner d row uid -
        netInner d ((mget dg d).getD []) uid := by
  induction dg with
  | nil => simp [netOf, mset, mget, netInner]
  | cons p rest ih =>
    by_cases hp : p.1 = d
    · simp only [mset, if_pos hp, netOf, List.map_cons, List.sum_cons, mget, hp]
      simp
      ring
    · simp only [mset, if_neg hp, netOf, List.map_cons, List.sum_cons, mget,
        if_neg hp] at ih ⊢
      rw [ih]
      ring

theorem dg_old_cent {names : List (String × String)}
    {dg : List (String × List (String × ℚ))} (hdg : DGinv names dg)
    (d cr : String) :
    IsCent ((mget ((mget dg d).getD []) cr).getD 0) := by
  cases hrow : mget dg d with
  | none =>
    simp only [hrow, Option.getD_none, mget]
    exact isCent_zero
  | some row =>
    cases hv : mget row cr with
    | none =>
      simp only [hrow, Option.getD_some, hv, Option.getD_none]
      exact isCent_zero
    | some w =>
      have hmem := mget_some_mem hrow
      have hmem2 := mget_some_mem hv
      have h2 := (hdg _ hmem).2 _ hmem2
      simpa [hrow, hv] using h2.1

theorem updateDebtGraph_netOf {names : List (String × String)}
    {dg : List (String × List (String × ℚ))} (hdg : DGinv names dg)
    (d cr : String) {a : ℚ} (hac : IsCent a) (uid : String) :
    netOf (updateDebtGraph dg d cr a) uid =
      netOf dg uid + ((if cr = uid then a else 0) - (if d = uid then a else 0)) := by
  unfold updateDebtGraph
  dsimp only
  rw [netOf_mset_row, netInner_mset]
  have hadd : add ((mget ((mget dg d).getD []) cr).getD 0) a -
      (mget ((mget dg d).getD []) cr).getD 0 = a := by
    rw [add_cent (dg_old_cent hdg d cr) hac]
    ring
  rw [hadd]
  ring

theorem updateDebtGraph_DGinv {names : List (String × String)}
    {dg : List (String × List (String × ℚ))} (hdg : DGinv names dg)
    {d cr : String} {a : ℚ} (hne : d ≠ cr)
    (hd : (mget names d).isSome = true) (hcr : (mget names cr).isSome = true) :
    DGinv names (updateDebtGraph dg d cr a) := by
  unfold updateDebtGraph
  dsimp only
  intro p hp
  rcases mem_mset hp with h | h
  · exact hdg p h
  · subst h
    refine ⟨hd, ?_⟩
    intro q hq
    rcases mem_mset hq with h2 | h2
    · cases hrow : mget dg d with
      | none => rw [hrow] at h2; simp at h2
      | some row =>
        rw [hrow] at h2
        exact (hdg _ (mget_some_mem hrow)).2 q (by simpa using h2)
    · subst h2
      exact ⟨isCent_round _, hne, hcr⟩

/-- Combined effect of the per-share loop of `processExpense`: every share
adds its amount to its user's `totalShare`, marks the user present, and (for
non-payer sharers) records a debt edge; the debt-graph net positions move by
the payer's credit minus the sharer's debit, share by share. -/
theorem applyShares_char {names : List (String × String)} {paidBy : String}
    (hpb : (mget names paidBy).isSome = true) :
    ∀ (ss : List ComputedShare) (ub : List (String × UserBalance))
      (dg : List (String × List (String × ℚ)))
      (fp fs : String → ℚ) (pres : String → Prop),
      UBchar ub fp fs pres →
      (∀ uid, IsCent (fp uid) ∧ IsCent (fs uid)) →
      (∀ s ∈ ss, IsCent s.amount ∧ (mget names s.userId).isSome = true) →
      DGinv names dg →
      UBchar (applyShares names paidBy ss ub dg).1 fp
        (fun uid => fs uid + (ss.map fun s => if s.userId = uid then s.amount else 0).sum)
        (fun uid => pres uid ∨ uid ∈ ss.map (·.userId)) ∧
      DGinv names (applyShares names paidBy ss ub dg).2 ∧
      ∀ uid, netOf (applyShares names paidBy ss ub dg).2 uid =
        netOf dg uid + (ss.map fun s =>
          (if paidBy = uid then s.amount else 0) -
            (if s.userId = uid then s.amount else 0)).sum := by
  intro ss
  induction ss with
  | nil =>
    intro ub dg fp fs pres h hcent hss hdg
    refine ⟨?_, hdg, ?_⟩
    · exact UBchar_congr h (fun u => by simp [applyShares]) (fun u => by simp [applyShares])
        (fun u => by simp [applyShares])
    · intro uid
      simp [applyShares]
  | cons s rest ih =>
    intro ub dg fp fs pres h hcent hss hdg
    have hs := hss s (List.mem_cons_self s rest)
    have hrest : ∀ t ∈ rest, IsCent t.amount ∧ (mget names t.userId).isSome = true :=
      fun t ht => hss t (List.mem_cons_of_mem s ht)
    have hub2 := @updateUserBalance_owed_char names ub fp fs pres h hcent s.userId s.amount hs.1
    have hcent2 : ∀ uid, IsCent (fp uid) ∧
        IsCent (if uid = s.userId then fs uid + s.amount else fs uid) := by
      intro uid
      refine ⟨(hcent uid).1, ?_⟩
      by_cases hu : uid = s.userId
      · rw [if_pos hu]
        exact isCent_add (hcent uid).2 hs.1
      · rw [if_neg hu]
        exact (hcent uid).2
    by_cases hne : s.userId ≠ paidBy
    · have hdg2 := @updateDebtGraph_DGinv names dg hdg s.userId paidBy s.amount hne hs.2 hpb
      have hnet2 := fun uid => updateDebtGraph_netOf hdg s.userId paidBy hs.1 uid
      have happ : applyShares names paidBy (s :: rest) ub dg =
          applyShares names paidBy rest
            (updateUserBalance names ub s.userId none (some s.amount))
            (updateDebtGraph dg s.userId paidBy s.amount) := by
        rw [applyShares, if_pos hne]
      rw [happ]
      obtain ⟨hu3, hd3, hn3⟩ := ih _ _ _ _ _ hub2 hcent2 hrest hdg2
      refine ⟨?_, hd3, ?_⟩
      · refine UBchar_congr hu3 (fun u => rfl) (fun u => ?_) (fun u => ?_)
        · dsimp only
          by_cases hu : u = s.userId
          · rw [if_pos hu, List.map_cons, List.sum_cons, if_pos (hu ▸ rfl : s.userId = u)]
            ring
          · rw [if_neg hu, List.map_cons, List.sum_cons,
              if_neg (fun hc => hu hc.symm)]
            ring
        · dsimp only
          rw [List.map_cons, List.mem_cons]
          constructor
          · rintro ((h1 | h1) | h1)
            · exact Or.inr (Or.inl h1)
            · exact Or.inl h1
            · exact Or.inr (Or.inr h1)
          · rintro (h1 | h1 | h1)
            · exact Or.inl (Or.inr h1)
            · exact Or.inl (Or.inl h1)
            · exact Or.inr h1
      · intro uid
        rw [hn3 uid, hnet2 uid, List.map_cons, List.sum_cons]
        ring
    · have heq : s.userId = paidBy := not_not.1 hne
      have happ : applyShares names paidBy (s :: rest) ub dg =
          applyShares names paidBy rest
            (updateUserBalance names ub s.userId none (some s.amount)) dg := by
        rw [applyShares, if_neg hne]
      rw [happ]
      obtain ⟨hu3, hd3, hn3⟩ := ih _ _ _ _ _ hub2 hcent2 hrest hdg
      refine ⟨?_, hd3, ?_⟩
      · refine UBchar_congr hu3 (fun u => rfl) (fun u => ?_) (fun u => ?_)
        · dsimp only
          by_cases hu : u = s.userId
          · rw [if_pos hu, List.map_cons, List.sum_cons, if_pos (hu ▸ rfl : s.userId = u)]
            ring
          · rw [if_neg hu, List.map_cons, List.sum_cons,
              if_neg (fun hc => hu hc.symm)]
            ring
        · dsimp only
          rw [List.map_cons, List.mem_cons]
          constructor
          · rintro ((h1 | h1) | h1)
            · exact Or.inr (Or.inl h1)
            · exact Or.inl h1
            · exact Or.inr (Or.inr h1)
          · rintro (h1 | h1 | h1)
            · exact Or.inl (Or.inr h1)
            · exact Or.inl (Or.inl h1)
            · exact Or.inr h1
      · intro uid
        rw [hn3 uid, List.map_cons, List.sum_cons]
        have hz : (if paidBy = uid then s.amount else 0) -
            (if s.userId = uid then s.amount else 0) = 0 := by
          rw [heq]
          ring
        rw [hz]
        ring

/-! ### Characterisation of expense processing -/

theorem sharesOf_eq {e : EnhancedExpense} {shares : List ComputedShare}
    (hok : calculateShares e = .ok shares) : sharesOf e = shares := by
  unfold sharesOf
  rw [hok]

theorem distributeByPercentages_ok_cent {t : ℚ} {ps l : List ℚ}
    (h : distributeByPercentages t ps = .ok l) : ∀ q ∈ l, IsCent q := by
  have hguard : ¬ (1 / 100 < |ps.sum - 100|) := by
    intro hg
    rw [distributeByPercentages, if_pos hg] at h
    exact Except.noConfusion h
  rw [distributeByPercentages_ok hguard] at h
  obtain rfl := (Except.ok.inj h).symm
  refine adjust_cent ?_
  intro q hq
  rw [List.mem_map] at hq
  obtain ⟨p, -, rfl⟩ := hq
  exact isCent_round _

theorem distributeByShares_ok_cent {t : ℚ} {ws l : List ℚ}
    (h : distributeByShares t ws = .ok l) : ∀ q ∈ l, IsCent q := by
  have hguard : ¬ (ws.sum = 0) := by
    intro hg
    rw [distributeByShares, if_pos hg] at h
    exact Except.noConfusion h
  rw [distributeByShares_ok hguard] at h
  obtain rfl := (Except.ok.inj h).symm
  refine adjust_cent ?_
  intro q hq
  rw [List.mem_map] at hq
  obtain ⟨p, -, rfl⟩ := hq
  exact isCent_round _

theorem mem_amounts_of_mem_zip {ps : List ParticipantShare} {amts : List ℚ}
    {x : ComputedShare} (hlen : ps.length = amts.length)
    (hx : x ∈ zipAmounts ps amts) : x.amount ∈ amts := by
  rw [← zipAmounts_amounts hlen]
  exact List.mem_map_of_mem _ hx

/-- Every computed share amount is cent-representable, whatever the split
type and whatever the inputs. -/
theorem calculateShares_cent {e : EnhancedExpense} {shares : List ComputedShare}
    (hok : calculateShares e = .ok shares) : ∀ s ∈ shares, IsCent s.amount := by
  unfold calculateShares at hok
  cases hs : e.splitType <;> rw [hs] at hok
  · obtain ⟨amts, hd, rfl, hlen⟩ := calculateEqualShares_ok hok
    intro s hsm
    exact distribute_ok_cent hd _ (mem_amounts_of_mem_zip hlen.symm hsm)
  · obtain ⟨amts, hd, rfl⟩ := calculatePercentageShares_ok hok
    have hlen : e.participants.length = amts.length := by
      rw [distributeByPercentages_ok_length hd, List.length_map]
    intro s hsm
    exact distributeByPercentages_ok_cent hd _ (mem_amounts_of_mem_zip hlen hsm)
  · obtain ⟨hg, rfl⟩ := calculateCustomShares_ok hok
    intro s hsm
    rw [List.mem_map] at hsm
    obtain ⟨p, -, rfl⟩ := hsm
    exact isCent_round _
  · obtain ⟨amts, hd, rfl⟩ := calculateWeightedShares_ok hok
    have hlen : e.participants.length = amts.length := by
      rw [distributeByShares_ok_length hd, List.length_map]
    intro s hsm
    exact distributeByShares_ok_cent hd _ (mem_amounts_of_mem_zip hlen hsm)

theorem sharesOf_cent (e : EnhancedExpense) : ∀ s ∈ sharesOf e, IsCent s.amount := by
  unfold sharesOf
  cases hok : calculateShares e with
  | ok shares => exact calculateShares_cent hok
  | error err => simp

theorem shareOf_cent (e : EnhancedExpense) (uid : String) : IsCent (shareOf e uid) := by
  refine isCent_sum ?_
  intro q hq
  rw [List.mem_map] at hq
  obtain ⟨sh, hmem, rfl⟩ := hq
  by_cases h : sh.userId = uid
  · rw [if_pos h]
    exact sharesOf_cent e sh hmem
  · rw [if_neg h]
    exact isCent_zero

theorem shareSum_cent (e : EnhancedExpense) : IsCent (shareSum e) := by
  refine isCent_sum ?_
  intro q hq
  rw [List.mem_map] at hq
  obtain ⟨sh, hmem, rfl⟩ := hq
  exact sharesOf_cent e sh hmem

theorem specPaid_cent {es : List EnhancedExpense} (hec : ∀ e ∈ es, IsCent e.amount)
    (uid : String) : IsCent (specPaid es uid) := by
  refine isCent_sum ?_
  intro q hq
  rw [List.mem_map] at hq
  obtain ⟨e, hmem, rfl⟩ := hq
  by_cases h : e.paidBy = uid
  · rw [if_pos h]
    exact hec e hmem
  · rw [if_neg h]
    exact isCent_zero

theorem specShare_cent (es : List EnhancedExpense) (uid : String) :
    IsCent (specShare es uid) := by
  refine isCent_sum ?_
  intro q hq
  rw [List.mem_map] at hq
  obtain ⟨e, hmem, rfl⟩ := hq
  exact shareOf_cent e uid

theorem specPaid_cons (e : EnhancedExpense) (es : List EnhancedExpense) (uid : String) :
    specPaid (e :: es) uid = (if e.paidBy = uid then e.amount else 0) + specPaid es uid := by
  simp [specPaid]

theorem specShare_cons (e : EnhancedExpense) (es : List EnhancedExpense) (uid : String) :
    specShare (e :: es) uid = shareOf e uid + specShare es uid := by
  simp [specShare]

theorem netSpec_cons (e : EnhancedExpense) (es : List EnhancedExpense) (uid : String) :
    netSpec (e :: es) uid =
      ((if e.paidBy = uid then shareSum e else 0) - shareOf e uid) + netSpec es uid := by
  simp [netSpec]

theorem mentioned_cons (e : EnhancedExpense) (es : List EnhancedExpense) (uid : String) :
    mentioned (e :: es) uid ↔ mentionsExp e uid ∨ mentioned es uid := by
  simp [mentioned]

/-- Combined effect of processing one expense on the balance map and the
debt graph. -/
theorem processExpense_char {names : List (String × String)} {st st2 : CalcState}
    {e : EnhancedExpense} (hok : processExpense names st e = .ok st2)
    {fp fs : String → ℚ} {pres : String → Prop}
    (h : UBchar st.userBalances fp fs pres)
    (hcent : ∀ uid, IsCent (fp uid) ∧ IsCent (fs uid))
    (hec : IsCent e.amount)
    (hdg : DGinv names st.debtGraph)
    (hpb : (mget names e.paidBy).isSome = true)
    (hps : ∀ uid ∈ e.participants.map (·.userId), (mget names uid).isSome = true) :
    UBchar st2.userBalances
      (fun uid => fp uid + (if e.paidBy = uid then e.amount else 0))
      (fun uid => fs uid + shareOf e uid)
      (fun uid => pres uid ∨ mentionsExp e uid) ∧
    DGinv names st2.debtGraph ∧
    ∀ uid, netOf st2.debtGraph uid = netOf st.debtGraph uid +
      ((if e.paidBy = uid then shareSum e else 0) - shareOf e uid) := by
  unfold processExpense at hok
  cases hsh : calculateShares e with
  | error err =>
    rw [hsh] at hok
    exact Except.noConfusion hok
  | ok shares =>
    rw [hsh] at hok
    simp only [bind, Except.bind] at hok
    have hub1 := @updateUserBalance_paid_char names st.userBalances fp fs pres h hcent
      e.paidBy e.amount hec
    have hcent1 : ∀ uid, IsCent (if uid = e.paidBy then fp uid + e.amount else fp uid) ∧
        IsCent (fs uid) := by
      intro uid
      refine ⟨?_, (hcent uid).2⟩
      by_cases hu : uid = e.paidBy
      · rw [if_pos hu]
        exact isCent_add (hcent uid).1 hec
      · rw [if_neg hu]
        exact (hcent uid).1
    have hss : ∀ s ∈ shares, IsCent s.amount ∧ (mget names s.userId).isSome = true := by
      intro s hsm
      refine ⟨calculateShares_cent hsh s hsm, ?_⟩
      refine hps s.userId ?_
      rw [← calculateShares_userIds hsh]
      exact List.mem_map_of_mem _ hsm
    obtain ⟨hu3, hd3, hn3⟩ := applyShares_char hpb shares
      (updateUserBalance names st.userBalances e.paidBy (some e.amount) none)
      st.debtGraph _ _ _ hub1 hcent1 hss hdg
    have hst2 : st2 = ⟨(applyShares names e.paidBy shares
        (updateUserBalance names st.userBalances e.paidBy (some e.amount) none)
        st.debtGraph).1,
      (applyShares names e.paidBy shares
        (updateUserBalance names st.userBalances e.paidBy (some e.amount) none)
        st.debtGraph).2⟩ := by
      cases happ : applyShares names e.paidBy shares
          (updateUserBalance names st.userBalances e.paidBy (some e.amount) none)
          st.debtGraph with
      | mk ub2 dg2 =>
        rw [happ] at hok
        exact (Except.ok.inj hok).symm
    subst hst2
    have hshof : ∀ uid, shareOf e uid =
        (shares.map fun s => if s.userId = uid then s.amount else 0).sum := by
      intro uid
      rw [shareOf, sharesOf_eq hsh]
    have hshsum : shareSum e = (shares.map (·.amount)).sum := by
      rw [shareSum, sharesOf_eq hsh]
    refine ⟨?_, hd3, ?_⟩
    · refine UBchar_congr hu3 (fun u => ?_) (fun u => ?_) (fun u => ?_)
      · dsimp only
        by_cases hu : u = e.paidBy
        · rw [if_pos hu, if_pos (hu ▸ rfl : e.paidBy = u)]
        · rw [if_neg hu, if_neg (fun hc => hu hc.symm), add_zero]
      · dsimp only
        rw [hshof u]
      · dsimp only
        rw [show mentionsExp e u ↔ (e.paidBy = u ∨
            u ∈ e.participants.map (·.userId)) from Iff.rfl]
        rw [← calculateShares_userIds hsh]
        constructor
        · rintro ((h1 | h1) | h1)
          · exact Or.inr (Or.inl h1.symm)
          · exact Or.inl h1
          · exact Or.inr (Or.inr h1)
        · rintro (h1 | h1 | h1)
          · exact Or.inl (Or.inr h1)
          · exact Or.inl (Or.inl h1.symm)
          · exact Or.inr h1
    · intro uid
      rw [hn3 uid, hshof uid, hshsum]
      rw [sum_map_sub]
      congr 1
      by_cases hu : e.paidBy = uid
      · rw [if_pos hu]
        rw [show (shares.map fun s => if e.paidBy = uid then s.amount else 0) =
          shares.map (·.amount) from List.map_congr_left fun s _ => if_pos hu]
      · rw [if_neg hu]
        rw [show (shares.map fun s => if e.paidBy = uid then s.amount else 0) =
            shares.map fun s => (0 : ℚ) from List.map_congr_left fun s _ => if_neg hu]
        simp

/-- Characterisation of the whole expense loop: starting from a state whose
balance map is characterised by ghost functions, processing every expense
adds the exact paid and share totals, extends the present set by the
mentioned users, and moves the debt-graph nets by `netSpec`. -/
theorem processAll_char {names : List (String × String)} :
    ∀ (es : List EnhancedExpense) (st st2 : CalcState)
      (fp fs : String → ℚ) (pres : String → Prop),
      processAll names st es = .ok st2 →
      UBchar st.userBalances fp fs pres →
      (∀ uid, IsCent (fp uid) ∧ IsCent (fs uid)) →
      DGinv names st.debtGraph →
      (∀ e ∈ es, IsCent e.amount) →
      (∀ e ∈ es, (mget names e.paidBy).isSome = true ∧
        ∀ uid ∈ e.participants.map (·.userId), (mget names uid).isSome = true) →
      UBchar st2.userBalances
        (fun uid => fp uid + specPaid es uid)
        (fun uid => fs uid + specShare es uid)
        (fun uid => pres uid ∨ mentioned es uid) ∧
      DGinv names st2.debtGraph ∧
      ∀ uid, netOf st2.debtGraph uid = netOf st.debtGraph uid + netSpec es uid := by
  intro es
  induction es with
  | nil =>
    intro st st2 fp fs pres hok h hcent hdg hec hnm
    obtain rfl : st = st2 := Except.ok.inj hok
    refine ⟨?_, hdg, ?_⟩
    · refine UBchar_congr h (fun u => by simp [specPaid]) (fun u => by simp [specShare])
        (fun u => by simp [mentioned])
    · intro uid
      simp [netSpec]
  | cons e rest ih =>
    intro st st2 fp fs pres hok h hcent hdg hec hnm
    rw [processAll] at hok
    cases hpe : processExpense names st e with
    | error err =>
      rw [hpe] at hok
      exact Except.noConfusion hok
    | ok st1 =>
      rw [hpe] at hok
      simp only [bind, Except.bind] at hok
      have hnm_e := hnm e (List.mem_cons_self e rest)
      obtain ⟨hu1, hd1, hn1⟩ := processExpense_char hpe h hcent
        (hec e (List.mem_cons_self e rest)) hdg hnm_e.1 hnm_e.2
      have hcent1 : ∀ uid,
          IsCent (fp uid + (if e.paidBy = uid then e.amount else 0)) ∧
          IsCent (fs uid + shareOf e uid) := by
        intro uid
        constructor
        · refine isCent_add (hcent uid).1 ?_
          by_cases hu : e.paidBy = uid
          · rw [if_pos hu]
            exact hec e (List.mem_cons_self e rest)
          · rw [if_neg hu]
            exact isCent_zero
        · exact isCent_add (hcent uid).2 (shareOf_cent e uid)
      obtain ⟨hu2, hd2, hn2⟩ := ih st1 st2 _ _ _ hok hu1 hcent1 hd1
        (fun x hx => hec x (List.mem_cons_of_mem e hx))
        (fun x hx => hnm x (List.mem_cons_of_mem e hx))
      refine ⟨?_, hd2, ?_⟩
      · refine UBchar_congr hu2 (fun u => ?_) (fun u => ?_) (fun u => ?_)
        · dsimp only
          rw [specPaid_cons]
          ring
        · dsimp only
          rw [specShare_cons]
          ring
        · dsimp only
          rw [mentioned_cons]
          tauto
      · intro uid
        rw [hn2 uid, hn1 uid, netSpec_cons]
        ring

/-- The inner participant fold of `initializeUserNames` registers exactly
the participants (on top of whatever was there). -/
theorem names_inner_isSome (ps : List ParticipantShare) :
    ∀ (m : List (String × String)) (uid : String),
      (mget (ps.foldl (fun m p => mset m p.userId p.name) m) uid).isSome ↔
        (mget m uid).isSome ∨ uid ∈ ps.map (·.userId) := by
  induction ps with
  | nil =>
    intro m uid
    simp
  | cons p rest ih =>
    intro m uid
    rw [List.foldl_cons]
    rw [ih (mset m p.userId p.name) uid]
    by_cases hu : uid = p.userId
    · subst hu
      rw [mget_mset_self]
      simp
    · rw [mget_mset_ne _ _ hu]
      simp only [List.map_cons, List.mem_cons]
      constructor
      · rintro (h1 | h1)
        · exact Or.inl h1
        · exact Or.inr (Or.inr h1)
      · rintro (h1 | h1 | h1)
        · exact Or.inl h1
        · exact absurd h1 hu
        · exact Or.inr h1

/-- `initializeUserNames` registers exactly the mentioned users. -/
theorem names_isSome (es : List EnhancedExpense) :
    ∀ (uid : String),
      (mget (initializeUserNames es) uid).isSome ↔ mentioned es uid := by
  suffices h : ∀ (m : List (String × String)) (uid : String),
      (mget (es.foldl (fun m e =>
        e.participants.foldl (fun m p => mset m p.userId p.name)
          (mset m e.paidBy e.paidByName)) m) uid).isSome ↔
        (mget m uid).isSome ∨ mentioned es uid by
    intro uid
    rw [initializeUserNames, h [] uid]
    simp [mget]
  induction es with
  | nil =>
    intro m uid
    simp [mentioned]
  | cons e rest ih =>
    intro m uid
    rw [List.foldl_cons, ih, names_inner_isSome, mentioned_cons]
    by_cases hu : uid = e.paidBy
    · subst hu
      rw [mget_mset_self]
      simp [mentionsExp]
    · rw [mget_mset_ne _ _ hu]
      unfold mentionsExp
      constructor
      · rintro ((h1 | h1) | h1)
        · exact Or.inl h1
        · exact Or.inr (Or.inl (Or.inr h1))
        · exact Or.inr (Or.inr h1)
      · rintro (h1 | (h1 | h1) | h1)
        · exact Or.inl (Or.inl h1)
        · exact absurd h1.symm hu
        · exact Or.inl (Or.inr h1)
        · exact Or.inr h1

/-- `ensureAllUsersHaveBalances` is the identity when every known user
already has a balance record. -/
theorem ensure_id :
    ∀ (names : List (String × String)) (m : List (String × UserBalance)),
      (∀ p ∈ names, (mget m p.1).isSome = true) →
      ensureAllUsersHaveBalances names m = m := by
  intro names
  induction names with
  | nil =>
    intro m hall
    rfl
  | cons p rest ih =>
    intro m hall
    rw [ensureAllUsersHaveBalances, List.foldl_cons,
      if_pos (hall p (List.mem_cons_self p rest))]
    exact ih m fun q hq => hall q (List.mem_cons_of_mem p hq)

/-- Master characterisation of the constructor state: the balance map holds
exactly the mentioned users with their exact paid/share totals, and the
debt-graph nets follow `netSpec`. -/
theorem calcState_char {es : List EnhancedExpense} {st : CalcState}
    (hok : calcState es = .ok st) (hec : ∀ e ∈ es, IsCent e.amount) :
    UBchar st.userBalances (specPaid es) (specShare es) (mentioned es) ∧
    DGinv (initializeUserNames es) st.debtGraph ∧
    ∀ uid, netOf st.debtGraph uid = netSpec es uid := by
  unfold calcState at hok
  dsimp only [bind, Except.bind] at hok
  cases hpa : processAll (initializeUserNames es) ⟨[], []⟩ es with
  | error err =>
    rw [hpa] at hok
    exact Except.noConfusion hok
  | ok st1 =>
    rw [hpa] at hok
    simp only [bind, Except.bind] at hok
    obtain rfl : { st1 with
        userBalances := ensureAllUsersHaveBalances (initializeUserNames es)
          st1.userBalances } = st := Except.ok.inj hok
    have hnm : ∀ e ∈ es, (mget (initializeUserNames es) e.paidBy).isSome = true ∧
        ∀ uid ∈ e.participants.map (·.userId),
          (mget (initializeUserNames es) uid).isSome = true := by
      intro e he
      constructor
      · rw [names_isSome]
        exact ⟨e, he, Or.inl rfl⟩
      · intro uid huid
        rw [names_isSome]
        exact ⟨e, he, Or.inr huid⟩
    obtain ⟨hu1, hd1, hn1⟩ := processAll_char es ⟨[], []⟩ st1 _ _ _ hpa UBchar_nil
      (fun uid => ⟨isCent_zero, isCent_zero⟩) (by intro p hp; simp at hp) hec hnm
    have hu2 : UBchar st1.userBalances (specPaid es) (specShare es) (mentioned es) := by
      refine UBchar_congr hu1 (fun u => by ring) (fun u => by ring) (fun u => by tauto)
    have hens : ensureAllUsersHaveBalances (initializeUserNames es) st1.userBalances =
        st1.userBalances := by
      refine ensure_id _ _ ?_
      intro p hp
      have hmem : (mget (initializeUserNames es) p.1).isSome := by
        rw [mget_isSome_iff_mem]
        exact List.mem_map_of_mem _ hp
      rw [names_isSome] at hmem
      exact (UBchar_isSome hu2 p.1).2 hmem
    refine ⟨?_, hd1, ?_⟩
    · show UBchar (ensureAllUsersHaveBalances (initializeUserNames es) st1.userBalances)
        (specPaid es) (specShare es) (mentioned es)
      rw [hens]
      exact hu2
    · intro uid
      show netOf st1.debtGraph uid = netSpec es uid
      rw [hn1 uid]
      simp [netOf]

/-! ### Sorting is a permutation -/

theorem insertByDesc_perm {α : Type} (key : α → ℚ) (x : α) :
    ∀ l : List α, (insertByDesc key x l).Perm (x :: l) := by
  intro l
  induction l with
  | nil => exact List.Perm.refl _
  | cons y ys ih =>
    rw [insertByDesc]
    by_cases h : key y < key x
    · rw [if_pos h]
    · rw [if_neg h]
      exact (List.Perm.cons y ih).trans (List.Perm.swap x y ys)

theorem sortByDesc_perm {α : Type} (key : α → ℚ) (l : List α) :
    (sortByDesc key l).Perm l := by
  suffices h : ∀ (l acc : List α),
      (l.foldl (fun acc x => insertByDesc key x acc) acc).Perm (l ++ acc) by
    have h2 := h l []
    rw [List.append_nil] at h2
    exact h2
  intro l
  induction l with
  | nil => intro acc; exact List.Perm.refl _
  | cons x xs ih =>
    intro acc
    rw [List.foldl_cons]
    refine (ih (insertByDesc key x acc)).trans ?_
    refine ((List.Perm.append_left xs (insertByDesc_perm key x acc)).trans
      List.perm_middle).trans ?_
    exact List.Perm.refl _

theorem sortByDesc_mem {α : Type} (key : α → ℚ) (l : List α) (a : α) :
    a ∈ sortByDesc key l ↔ a ∈ l :=
  (sortByDesc_perm key l).mem_iff

theorem sortByDesc_length {α : Type} (key : α → ℚ) (l : List α) :
    (sortByDesc key l).length = l.length :=
  (sortByDesc_perm key l).length_eq

theorem sortByDesc_sum_map {α : Type} (key : α → ℚ) (f : α → ℚ) (l : List α) :
    ((sortByDesc key l).map f).sum = (l.map f).sum :=
  ((sortByDesc_perm key l).map f).sum_eq

/-! ### The net-balance fold -/

theorem NBchar_isSome {m : List (String × ℚ)} {g : String → ℚ}
    {pres : String → Prop} (h : NBchar m g pres) (uid : String) :
    (mget m uid).isSome ↔ pres uid := by
  obtain ⟨-, hsome, hnone⟩ := h
  cases hv : mget m uid with
  | some v => simpa using (hsome uid v hv).1
  | none => simpa using (hnone uid hv)

theorem NBchar_congr {m : List (String × ℚ)} {g g2 : String → ℚ}
    {pres pres2 : String → Prop} (h : NBchar m g pres)
    (hg : ∀ u, g u = g2 u) (hp : ∀ u, pres u ↔ pres2 u) :
    NBchar m g2 pres2 := by
  obtain ⟨hnd, hsome, hnone⟩ := h
  refine ⟨hnd, ?_, ?_⟩
  · intro uid v hv
    obtain ⟨h1, h2⟩ := hsome uid v hv
    exact ⟨(hp uid).1 h1, hg uid ▸ h2⟩
  · intro uid hv
    exact fun hc => hnone uid hv ((hp uid).2 hc)

/-- The zero-initialisation fold of `computeNetBalances` registers exactly
the known users, all at zero. -/
theorem nb_init (names : List (String × String)) :
    NBchar (names.foldl (fun m p => mset m p.1 0) [])
      (fun _ => 0) (fun uid => uid ∈ mkeys names) := by
  suffices h : ∀ (names : List (String × String)) (m : List (String × ℚ))
      (pres : String → Prop), NBchar m (fun _ => 0) pres →
      NBchar (names.foldl (fun m p => mset m p.1 0) m) (fun _ => 0)
        (fun uid => pres uid ∨ uid ∈ mkeys names) by
    refine NBchar_congr (h names [] (fun _ => False) ?_) (fun u => rfl) (fun u => by tauto)
    exact ⟨List.nodup_nil, fun uid v hv => Option.noConfusion hv, fun uid hv => not_false⟩
  intro names
  induction names with
  | nil =>
    intro m pres h
    refine NBchar_congr h (fun u => rfl) (fun u => by simp [mkeys])
  | cons p rest ih =>
    intro m pres h
    rw [List.foldl_cons]
    refine NBchar_congr (ih (mset m p.1 0) (fun uid => pres uid ∨ uid = p.1) ?_)
      (fun u => rfl) (fun u => ?_)
    · obtain ⟨hnd, hsome, hnone⟩ := h
      refine ⟨?_, ?_, ?_⟩
      · cases hk : (mget m p.1).isSome with
        | true => rw [mkeys_mset_present _ hk]; exact hnd
        | false =>
          have hnone2 : mget m p.1 = none := by
            cases hm : mget m p.1
            · rfl
            · rw [hm] at hk; exact Bool.noConfusion hk
          rw [mkeys_mset_absent _ hnone2]
          exact List.Nodup.append hnd (List.nodup_singleton p.1)
            (by
              intro a ha hb
              rw [List.mem_singleton] at hb
              subst hb
              exact absurd (mget_isSome_iff_mem.2 ha) (by rw [hnone2]; simp))
      · intro uid v hv
        by_cases hu : uid = p.1
        · subst hu
          rw [mget_mset_self] at hv
          exact ⟨Or.inr rfl, (Option.some.inj hv).symm⟩
        · rw [mget_mset_ne _ _ hu] at hv
          exact ⟨Or.inl (hsome uid v hv).1, (hsome uid v hv).2⟩
      · intro uid hv
        by_cases hu : uid = p.1
        · subst hu
          rw [mget_mset_self] at hv
          exact Option.noConfusion hv
        · rw [mget_mset_ne _ _ hu] at hv
          rintro (hc | hc)
          · exact hnone uid hv hc
          · exact hu hc
    · rw [show mkeys (p :: rest) = p.1 :: mkeys rest from rfl, List.mem_cons]
      tauto

/-- One `nbStep` moves the ghost by the edge: the creditor gains the amount,
the debtor loses it. -/
theorem nbStep_char {m : List (String × ℚ)} {g : String → ℚ}
    {pres : String → Prop} (h : NBchar m g pres) (hc : ∀ uid, IsCent (g uid))
    {d : String} {q : String × ℚ} (hdc : d ≠ q.1) (hd : pres d)
    (hcp : pres q.1) (ha : IsCent q.2) :
    NBchar (nbStep m d q)
      (fun uid => g uid + (if q.1 = uid then q.2 else 0) -
        (if d = uid then q.2 else 0)) pres := by
  obtain ⟨hnd, hsome, hnone⟩ := h
  have hdS : (mget m d).isSome := by
    rw [NBchar_isSome ⟨hnd, hsome, hnone⟩ d]
    exact hd
  have hcS : (mget m q.1).isSome := by
    rw [NBchar_isSome ⟨hnd, hsome, hnone⟩ q.1]
    exact hcp
  obtain ⟨vd, hvd⟩ := Option.isSome_iff_exists.1 hdS
  obtain ⟨vc, hvc⟩ := Option.isSome_iff_exists.1 hcS
  have hvdg : vd = g d := (hsome d vd hvd).2
  have hvcg : vc = g q.1 := (hsome q.1 vc hvc).2
  unfold nbStep
  dsimp only
  rw [hvd, hvc]
  dsimp only [Option.getD_some]
  have hm2c : mget (mset m d (subtract vd q.2)) q.1 = some vc := by
    rw [mget_mset_ne _ _ (fun hc2 => hdc hc2.symm)]
    exact hvc
  have hsub : subtract vd q.2 = vd - q.2 := subtract_cent (hvdg ▸ hc d) ha
  have hadd : add vc q.2 = vc + q.2 := add_cent (hvcg ▸ hc q.1) ha
  have hkeys2 : mkeys (mset m d (subtract vd q.2)) = mkeys m :=
    mkeys_mset_present _ hdS
  have hcS2 : (mget (mset m d (subtract vd q.2)) q.1).isSome := by
    rw [hm2c]; rfl
  refine ⟨?_, ?_, ?_⟩
  · rw [mkeys_mset_present _ hcS2, hkeys2]
    exact hnd
  · intro uid v hv
    by_cases huc : uid = q.1
    · subst huc
      rw [mget_mset_self] at hv
      refine ⟨hcp, ?_⟩
      dsimp only
      rw [← Option.some.inj hv, hadd, hvcg, if_pos rfl, if_neg hdc]
      ring
    · rw [mget_mset_ne _ _ huc] at hv
      by_cases hud : uid = d
      · subst hud
        rw [mget_mset_self] at hv
        refine ⟨hd, ?_⟩
        dsimp only
        rw [← Option.some.inj hv, hsub, hvdg,
          if_neg (fun hc2 => huc hc2.symm), if_pos rfl]
        ring
      · rw [mget_mset_ne _ _ hud] at hv
        refine ⟨(hsome uid v hv).1, ?_⟩
        dsimp only
        rw [(hsome uid v hv).2, if_neg (fun hc2 => huc hc2.symm),
          if_neg (fun hc2 => hud hc2.symm)]
        ring
  · intro uid hv
    by_cases huc : uid = q.1
    · subst huc
      rw [mget_mset_self] at hv
      exact Option.noConfusion hv
    · rw [mget_mset_ne _ _ huc] at hv
      by_cases hud : uid = d
      · subst hud
        rw [mget_mset_self] at hv
        exact Option.noConfusion hv
      · rw [mget_mset_ne _ _ hud] at hv
        exact hnone uid hv

theorem netInner_cons (d : String) (q : String × ℚ) (rest : List (String × ℚ))
    (uid : String) :
    netInner d (q :: rest) uid =
      ((if q.1 = uid then q.2 else 0) - (if d = uid then q.2 else 0)) +
        netInner d rest uid := by
  simp [netInner]

theorem netInner_cent {d : String} {inner : List (String × ℚ)}
    (h : ∀ q ∈ inner, IsCent q.2) (uid : String) :
    IsCent (netInner d inner uid) := by
  refine isCent_sum ?_
  intro x hx
  rw [List.mem_map] at hx
  obtain ⟨q, hq, rfl⟩ := hx
  refine isCent_sub ?_ ?_ <;> split
  · exact h q hq
  · exact isCent_zero
  · exact h q hq
  · exact isCent_zero

theorem netOf_cons (p : String × List (String × ℚ))
    (rest : List (String × List (String × ℚ))) (uid : String) :
    netOf (p :: rest) uid = netInner p.1 p.2 uid + netOf rest uid := by
  simp [netOf]

theorem netOf_cent {names : List (String × String)}
    {dg : List (String × List (String × ℚ))} (hdg : DGinv names dg)
    (uid : String) : IsCent (netOf dg uid) := by
  refine isCent_sum ?_
  intro x hx
  rw [List.mem_map] at hx
  obtain ⟨p, hp, rfl⟩ := hx
  exact netInner_cent (fun q hq => ((hdg p hp).2 q hq).1) uid

/-- The inner row fold of `computeNetBalances` moves the ghost by the row's
`netInner` contribution. -/
theorem nb_row (d : String) :
    ∀ (inner : List (String × ℚ)) (m : List (String × ℚ)) (g : String → ℚ)
      (pres : String → Prop), NBchar m g pres → (∀ uid, IsCent (g uid)) →
      pres d → (∀ q ∈ inner, IsCent q.2 ∧ d ≠ q.1 ∧ pres q.1) →
      NBchar (inner.foldl (fun m q => nbStep m d q) m)
        (fun uid => g uid + netInner d inner uid) pres := by
  intro inner
  induction inner with
  | nil =>
    intro m g pres h hc hd hrow
    exact NBchar_congr h (fun u => by simp [netInner]) (fun u => Iff.rfl)
  | cons q rest ih =>
    intro m g pres h hc hd hrow
    rw [List.foldl_cons]
    have hq := hrow q (List.mem_cons_self q rest)
    have h1 := nbStep_char h hc hq.2.1 hd hq.2.2 hq.1
    have hc1 : ∀ uid, IsCent (g uid + (if q.1 = uid then q.2 else 0) -
        (if d = uid then q.2 else 0)) := by
      intro uid
      refine isCent_sub (isCent_add (hc uid) ?_) ?_ <;> split
      · exact hq.1
      · exact isCent_zero
      · exact hq.1
      · exact isCent_zero
    refine NBchar_congr (ih _ _ _ h1 hc1 hd
      (fun x hx => hrow x (List.mem_cons_of_mem q hx))) (fun u => ?_) (fun u => Iff.rfl)
    rw [netInner_cons]
    ring

/-- The outer fold of `computeNetBalances` moves the ghost by `netOf`. -/
theorem nb_fold {names : List (String × String)} :
    ∀ (dg : List (String × List (String × ℚ))) (m : List (String × ℚ))
      (g : String → ℚ),
      NBchar m g (fun uid => (mget names uid).isSome = true) →
      (∀ uid, IsCent (g uid)) → DGinv names dg →
      NBchar (dg.foldl (fun m p => p.2.foldl (fun m q => nbStep m p.1 q) m) m)
        (fun uid => g uid + netOf dg uid)
        (fun uid => (mget names uid).isSome = true) := by
  intro dg
  induction dg with
  | nil =>
    intro m g h hc hdg
    exact NBchar_congr h (fun u => by simp [netOf]) (fun u => Iff.rfl)
  | cons p rest ih =>
    intro m g h hc hdg
    rw [List.foldl_cons]
    have hp := hdg p (List.mem_cons_self p rest)
    have h1 := nb_row p.1 p.2 m g _ h hc hp.1
      (fun q hq => ⟨((hp.2 q hq).1), ((hp.2 q hq).2.1), ((hp.2 q hq).2.2)⟩)
    have hc1 : ∀ uid, IsCent (g uid + netInner p.1 p.2 uid) := by
      intro uid
      exact isCent_add (hc uid) (netInner_cent (fun q hq => (hp.2 q hq).1) uid)
    refine NBchar_congr (ih _ _ h1 hc1
      (fun x hx => hdg x (List.mem_cons_of_mem p hx))) (fun u => ?_) (fun u => Iff.rfl)
    rw [netOf_cons]
    ring

/-- `computeNetBalances` computes exactly `netOf` on exactly the known
users. -/
theorem computeNetBalances_char {names : List (String × String)}
    {dg : List (String × List (String × ℚ))} (hdg : DGinv names dg) :
    NBchar (computeNetBalances names dg) (netOf dg)
      (fun uid => (mget names uid).isSome = true) := by
  unfold computeNetBalances
  dsimp only
  have hinit := NBchar_congr (nb_init names) (fun u => rfl)
    (fun u => mget_isSome_iff_mem.symm)
  have h := nb_fold dg _ _ hinit (fun uid => isCent_zero) hdg
  exact NBchar_congr h (fun u => by ring) (fun u => Iff.rfl)

/-- Every entry of the net-balance list carries the `netOf` value of a known
user. -/
theorem nets_entry {names : List (String × String)}
    {dg : List (String × List (String × ℚ))} (hdg : DGinv names dg)
    {p : String × ℚ} (hp : p ∈ computeNetBalances names dg) :
    p.2 = netOf dg p.1 ∧ (mget names p.1).isSome = true := by
  have hchar := computeNetBalances_char hdg
  have hm := mget_of_mem_nodup hchar.1 hp
  have h2 := hchar.2.1 p.1 p.2 hm
  exact ⟨h2.2, h2.1⟩

theorem nets_keys_nodup {names : List (String × String)}
    {dg : List (String × List (String × ℚ))} (hdg : DGinv names dg) :
    (mkeys (computeNetBalances names dg)).Nodup :=
  (computeNetBalances_char hdg).1

/-- The net-balance list mentions exactly the known users. -/
theorem nets_mem_key {names : List (String × String)}
    {dg : List (String × List (String × ℚ))} (hdg : DGinv names dg)
    (uid : String) :
    uid ∈ mkeys (computeNetBalances names dg) ↔ (mget names uid).isSome = true := by
  rw [← mget_isSome_iff_mem]
  exact NBchar_isSome (computeNetBalances_char hdg) uid

/-! ### The greedy settlement loop -/

theorem amtOf_cons (u c : String) (ca : ℚ) (l : List (String × ℚ)) :
    amtOf u ((c, ca) :: l) = (if c = u then ca else 0) + amtOf u l := by
  by_cases h : c = u <;> simp [amtOf, List.filter_cons, h]

theorem amtTo_cons (u : String) (s : Settlement) (l : List Settlement) :
    amtTo u (s :: l) = (if s.toUser = u then s.amount else 0) + amtTo u l := by
  by_cases h : s.toUser = u <;> simp [amtTo, List.filter_cons, h]

theorem amtFrom_cons (u : String) (s : Settlement) (l : List Settlement) :
    amtFrom u (s :: l) = (if s.fromUser = u then s.amount else 0) + amtFrom u l := by
  by_cases h : s.fromUser = u <;> simp [amtFrom, List.filter_cons, h]

theorem isCent_min {a b : ℚ} (ha : IsCent a) (hb : IsCent b) :
    IsCent (min a b) := by
  rw [min_def]
  split <;> assumption

theorem isZero_cent_eq_zero {a : ℚ} (hc : IsCent a) (h : isZero a = true) :
    a = 0 :=
  cent_small_eq_zero hc (of_decide_eq_true h)

theorem settleLoop_nil_left (names : List (String × String)) (fuel : ℕ)
    (ds : List (String × ℚ)) : settleLoop names fuel [] ds = ([], [], ds, []) := by
  cases fuel <;> cases ds <;> rfl

theorem settleLoop_nil_right (names : List (String × String)) (fuel : ℕ)
    (c : String × ℚ) (cs : List (String × ℚ)) :
    settleLoop names fuel (c :: cs) [] = ([], c :: cs, [], []) := by
  cases fuel <;> rfl

theorem settleLoop_zero (names : List (String × String))
    (cs ds : List (String × ℚ)) : settleLoop names 0 cs ds = ([], cs, ds, []) := by
  cases cs <;> cases ds <;> rfl

theorem settleLoop_cons (names : List (String × String)) (fuel : ℕ)
    (c : String) (ca : ℚ) (cs : List (String × ℚ)) (d : String) (da : ℚ)
    (ds : List (String × ℚ)) :
    settleLoop names (fuel + 1) ((c, ca) :: cs) ((d, da) :: ds) =
      (let m := min ca da
       let s : Settlement := ⟨d, nameOf names d, c, nameOf names c, round m⟩
       let r := settleLoop names fuel
         (if isZero (subtract ca m) then cs else (c, subtract ca m) :: cs)
         (if isZero (subtract da m) then ds else (d, subtract da m) :: ds)
       if 1 / 100 < m then (s :: r.1, r.2.1, r.2.2.1, r.2.2.2)
       else (r.1, r.2.1, r.2.2.1, s :: r.2.2.2)) := rfl

/-- Full accounting of the greedy loop: every creditor entry's amount is
recovered as recorded inflow plus dropped inflow plus leftover, and
symmetrically for debtors; and every emitted settlement's endpoints come
from the worklists. -/
theorem settleLoop_acc {names : List (String × String)} :
    ∀ (fuel : ℕ) (cs ds : List (String × ℚ)),
      (∀ p ∈ cs, IsCent p.2) → (∀ p ∈ ds, IsCent p.2) →
      (∀ u, amtOf u cs =
        amtTo u (settleLoop names fuel cs ds).1 +
        amtTo u (settleLoop names fuel cs ds).2.2.2 +
        amtOf u (settleLoop names fuel cs ds).2.1) ∧
      (∀ u, amtOf u ds =
        amtFrom u (settleLoop names fuel cs ds).1 +
        amtFrom u (settleLoop names fuel cs ds).2.2.2 +
        amtOf u (settleLoop names fuel cs ds).2.2.1) ∧
      (∀ s ∈ (settleLoop names fuel cs ds).1,
        s.toUser ∈ cs.map (·.1) ∧ s.fromUser ∈ ds.map (·.1)) := by
  intro fuel
  induction fuel with
  | zero =>
    intro cs ds hcs hds
    rw [settleLoop_zero]
    refine ⟨fun u => by simp [amtTo, amtFrom], fun u => by simp [amtTo, amtFrom], ?_⟩
    intro s hs
    simp at hs
  | succ fuel ih =>
    intro cs ds hcs hds
    cases cs with
    | nil =>
      rw [settleLoop_nil_left]
      refine ⟨fun u => by simp [amtOf, amtTo, amtFrom],
        fun u => by simp [amtTo, amtFrom], ?_⟩
      intro s hs
      simp at hs
    | cons chd cs' =>
      cases ds with
      | nil =>
        rw [settleLoop_nil_right]
        refine ⟨fun u => by simp [amtTo, amtFrom],
          fun u => by simp [amtOf, amtTo, amtFrom], ?_⟩
        intro s hs
        simp at hs
      | cons dhd ds' =>
        obtain ⟨c, ca⟩ := chd
        obtain ⟨d, da⟩ := dhd
        rw [settleLoop_cons]
        dsimp only
        have hca : IsCent ca := hcs (c, ca) (List.mem_cons_self _ _)
        have hda : IsCent da := hds (d, da) (List.mem_cons_self _ _)
        have hm : IsCent (min ca da) := isCent_min hca hda
        have hca2 : subtract ca (min ca da) = ca - min ca da := subtract_cent hca hm
        have hda2 : subtract da (min ca da) = da - min ca da := subtract_cent hda hm
        have hround : round (min ca da) = min ca da := round_cent hm
        have hcs2 : ∀ p ∈ (if isZero (subtract ca (min ca da)) then cs'
            else (c, subtract ca (min ca da)) :: cs'), IsCent p.2 := by
          split
          · exact fun p hp => hcs p (List.mem_cons_of_mem _ hp)
          · intro p hp
            rcases List.mem_cons.1 hp with h | h
            · subst h
              rw [hca2]
              exact isCent_sub hca hm
            · exact hcs p (List.mem_cons_of_mem _ h)
        have hds2 : ∀ p ∈ (if isZero (subtract da (min ca da)) then ds'
            else (d, subtract da (min ca da)) :: ds'), IsCent p.2 := by
          split
          · exact fun p hp => hds p (List.mem_cons_of_mem _ hp)
          · intro p hp
            rcases List.mem_cons.1 hp with h | h
            · subst h
              rw [hda2]
              exact isCent_sub hda hm
            · exact hds p (List.mem_cons_of_mem _ h)
        obtain ⟨ih1, ih2, ih3⟩ := ih _ _ hcs2 hds2
        have hamt1 : ∀ u, amtOf u (if isZero (subtract ca (min ca da)) then cs'
            else (c, subtract ca (min ca da)) :: cs') =
            (if c = u then ca - min ca da else 0) + amtOf u cs' := by
          intro u
          split
          case isTrue hz =>
            have h0 : ca - min ca da = 0 := by
              rw [← hca2]
              exact isZero_cent_eq_zero (hca2 ▸ isCent_sub hca hm) hz
            rw [h0]
            simp
          case isFalse hz =>
            rw [amtOf_cons, hca2]
        have hamt2 : ∀ u, amtOf u (if isZero (subtract da (min ca da)) then ds'
            else (d, subtract da (min ca da)) :: ds') =
            (if d = u then da - min ca da else 0) + amtOf u ds' := by
          intro u
          split
          case isTrue hz =>
            have h0 : da - min ca da = 0 := by
              rw [← hda2]
              exact isZero_cent_eq_zero (hda2 ▸ isCent_sub hda hm) hz
            rw [h0]
            simp
          case isFalse hz =>
            rw [amtOf_cons, hda2]
        have hkey1 : ∀ x, x ∈ ((if isZero (subtract ca (min ca da)) then cs'
            else (c, subtract ca (min ca da)) :: cs').map (·.1)) →
            x ∈ ((c, ca) :: cs').map (·.1) := by
          intro x hx
          rw [List.map_cons]
          split at hx
          · exact List.mem_cons_of_mem _ hx
          · rw [List.map_cons] at hx
            rcases List.mem_cons.1 hx with h | h
            · exact h ▸ List.mem_cons_self _ _
            · exact List.mem_cons_of_mem _ h
        have hkey2 : ∀ x, x ∈ ((if isZero (subtract da (min ca da)) then ds'
            else (d, subtract da (min ca da)) :: ds').map (·.1)) →
            x ∈ ((d, da) :: ds').map (·.1) := by
          intro x hx
          rw [List.map_cons]
          split at hx
          · exact List.mem_cons_of_mem _ hx
          · rw [List.map_cons] at hx
            rcases List.mem_cons.1 hx with h | h
            · exact h ▸ List.mem_cons_self _ _
            · exact List.mem_cons_of_mem _ h
        by_cases hrec : (1 : ℚ) / 100 < min ca da
        · rw [if_pos hrec]
          refine ⟨fun u => ?_, fun u => ?_, fun s hs => ?_⟩
          · dsimp only
            rw [amtOf_cons, amtTo_cons]
            dsimp only
            rw [hround]
            have hsum := ih1 u
            rw [hamt1 u] at hsum
            by_cases hu : c = u
            · simp only [if_pos hu] at hsum ⊢
              linear_combination hsum
            · simp only [if_neg hu] at hsum ⊢
              linear_combination hsum
          · dsimp only
            rw [amtOf_cons, amtFrom_cons]
            dsimp only
            rw [hround]
            have hsum := ih2 u
            rw [hamt2 u] at hsum
            by_cases hu : d = u
            · simp only [if_pos hu] at hsum ⊢
              linear_combination hsum
            · simp only [if_neg hu] at hsum ⊢
              linear_combination hsum
          · dsimp only at hs
            rcases List.mem_cons.1 hs with h | h
            · subst h
              exact ⟨List.mem_cons_self _ _, List.mem_cons_self _ _⟩
            · exact ⟨hkey1 _ (ih3 s h).1, hkey2 _ (ih3 s h).2⟩
        · rw [if_neg hrec]
          refine ⟨fun u => ?_, fun u => ?_, fun s hs => ?_⟩
          · dsimp only
            rw [amtOf_cons, amtTo_cons]
            dsimp only
            rw [hround]
            have hsum := ih1 u
            rw [hamt1 u] at hsum
            by_cases hu : c = u
            · simp only [if_pos hu] at hsum ⊢
              linear_combination hsum
            · simp only [if_neg hu] at hsum ⊢
              linear_combination hsum
          · dsimp only
            rw [amtOf_cons, amtFrom_cons]
            dsimp only
            rw [hround]
            have hsum := ih2 u
            rw [hamt2 u] at hsum
            by_cases hu : d = u
            · simp only [if_pos hu] at hsum ⊢
              linear_combination hsum
            · simp only [if_neg hu] at hsum ⊢
              linear_combination hsum
          · dsimp only at hs
            exact ⟨hkey1 _ (ih3 s hs).1, hkey2 _ (ih3 s hs).2⟩

theorem subtract_self (a : ℚ) : subtract a a = 0 := by
  unfold subtract
  rw [sub_self]
  exact round_cent isCent_zero

theorem isZero_zero : isZero 0 = true := by
  unfold isZero
  exact decide_eq_true (by norm_num)

/-- Count bound of the greedy loop: when both worklists are nonempty, the
number of recorded settlements stays strictly below the combined worklist
size — every iteration drives at least the smaller current entry to zero. -/
theorem settleLoop_count {names : List (String × String)} :
    ∀ (fuel : ℕ) (cs ds : List (String × ℚ)), cs ≠ [] → ds ≠ [] →
      (settleLoop names fuel cs ds).1.length + 1 ≤ cs.length + ds.length := by
  intro fuel
  induction fuel with
  | zero =>
    intro cs ds hcs hds
    rw [settleLoop_zero]
    have h1 := List.length_pos.2 hcs
    have h2 := List.length_pos.2 hds
    simp only [List.length_nil]
    omega
  | succ fuel ih =>
    intro cs ds hcs hds
    cases cs with
    | nil => exact absurd rfl hcs
    | cons chd cs' =>
      cases ds with
      | nil => exact absurd rfl hds
      | cons dhd ds' =>
        obtain ⟨c, ca⟩ := chd
        obtain ⟨d, da⟩ := dhd
        rw [settleLoop_cons]
        dsimp only
        by_cases hle : ca ≤ da
        · rw [min_eq_left hle, subtract_self, isZero_zero, if_pos rfl]
          cases cs' with
          | nil =>
            rw [settleLoop_nil_left]
            by_cases hrec : (1 : ℚ) / 100 < ca
            · rw [if_pos hrec]
              simp only [List.length_cons, List.length_nil]
              omega
            · rw [if_neg hrec]
              simp only [List.length_cons, List.length_nil]
              omega
          | cons x xs =>
            by_cases hz : isZero (subtract da ca) = true
            · rw [if_pos hz]
              cases ds' with
              | nil =>
                rw [settleLoop_nil_right]
                by_cases hrec : (1 : ℚ) / 100 < ca
                · rw [if_pos hrec]
                  simp only [List.length_cons, List.length_nil]
                  omega
                · rw [if_neg hrec]
                  simp only [List.length_cons, List.length_nil]
                  omega
              | cons y ys =>
                have hih := ih (x :: xs) (y :: ys)
                  (List.cons_ne_nil x xs) (List.cons_ne_nil y ys)
                by_cases hrec : (1 : ℚ) / 100 < ca
                · rw [if_pos hrec]
                  simp only [List.length_cons] at hih ⊢
                  omega
                · rw [if_neg hrec]
                  simp only [List.length_cons] at hih ⊢
                  omega
            · rw [if_neg hz]
              have hih := ih (x :: xs) ((d, subtract da ca) :: ds')
                (List.cons_ne_nil x xs) (List.cons_ne_nil _ ds')
              by_cases hrec : (1 : ℚ) / 100 < ca
              · rw [if_pos hrec]
                simp only [List.length_cons] at hih ⊢
                omega
              · rw [if_neg hrec]
                simp only [List.length_cons] at hih ⊢
                omega
        · rw [min_eq_right (le_of_lt (not_le.1 hle)), subtract_self,
            isZero_zero, if_pos rfl]
          cases ds' with
          | nil =>
            cases hcase : (if isZero (subtract ca da) = true then cs'
                else (c, subtract ca da) :: cs') with
            | nil =>
              rw [settleLoop_nil_left]
              by_cases hrec : (1 : ℚ) / 100 < da
              · rw [if_pos hrec]
                simp only [List.length_cons, List.length_nil]
                omega
              · rw [if_neg hrec]
                simp only [List.length_cons, List.length_nil]
                omega
            | cons x xs =>
              rw [settleLoop_nil_right]
              by_cases hrec : (1 : ℚ) / 100 < da
              · rw [if_pos hrec]
                simp only [List.length_cons, List.length_nil]
                omega
              · rw [if_neg hrec]
                simp only [List.length_cons, List.length_nil]
                omega
          | cons y ys =>
            cases hcase : (if isZero (subtract ca da) = true then cs'
                else (c, subtract ca da) :: cs') with
            | nil =>
              rw [settleLoop_nil_left]
              by_cases hrec : (1 : ℚ) / 100 < da
              · rw [if_pos hrec]
                simp only [List.length_cons, List.length_nil]
                omega
              · rw [if_neg hrec]
                simp only [List.length_cons, List.length_nil]
                omega
            | cons x xs =>
              have hih := ih (x :: xs) (y :: ys)
                (List.cons_ne_nil x xs) (List.cons_ne_nil y ys)
              have hlen : (x :: xs).length ≤ cs'.length + 1 := by
                rw [← hcase]
                split
                · omega
                · simp only [List.length_cons]
                  omega
              by_cases hrec : (1 : ℚ) / 100 < da
              · rw [if_pos hrec]
                simp only [List.length_cons] at hih hlen ⊢
                omega
              · rw [if_neg hrec]
                simp only [List.length_cons] at hih hlen ⊢
                omega

/-! ### Assembly of the calculation result -/

theorem runCalculation_ok {es : List EnhancedExpense}
    {r : BalanceCalculationResult} (hok : runCalculation es = .ok r) :
    ∃ st avg, calcState es = .ok st ∧
      divide ((es.map (·.amount)).sum)
        (((initializeUserNames es).length : ℕ) : ℚ) = .ok avg ∧
      r = { userBalances := getUserBalances st
            debtRelationships :=
              getDebtRelationships (initializeUserNames es) st.debtGraph
            settlements := optimizeSettlements (initializeUserNames es) st.debtGraph
            totalExpenses := (es.map (·.amount)).sum
            summary :=
              { totalTransactions :=
                  (optimizeSettlements (initializeUserNames es) st.debtGraph).length
                totalSettlementAmount :=
                  ((optimizeSettlements (initializeUserNames es)
                    st.debtGraph).map (·.amount)).sum
                averagePerPerson := avg
                isBalanced :=
                  (getUserBalances st).all fun b => isZero b.balance } } := by
  unfold runCalculation at hok
  dsimp only [bind, Except.bind] at hok
  cases hst : calcState es with
  | error err =>
    rw [hst] at hok
    exact Except.noConfusion hok
  | ok st =>
    rw [hst] at hok
    cases hdiv : divide ((es.map (·.amount)).sum)
        (((initializeUserNames es).length : ℕ) : ℚ) with
    | error err =>
      rw [hdiv] at hok
      exact Except.noConfusion hok
    | ok avg =>
      rw [hdiv] at hok
      exact ⟨st, avg, rfl, rfl, (Except.ok.inj hok).symm⟩

theorem processExpense_ok_shares {names : List (String × String)}
    {st st2 : CalcState} {e : EnhancedExpense}
    (h : processExpense names st e = .ok st2) :
    ∃ s, calculateShares e = .ok s := by
  unfold processExpense at h
  cases hcs : calculateShares e with
  | error err =>
    rw [hcs] at h
    simp only [bind, Except.bind] at h
    exact Except.noConfusion h
  | ok s => exact ⟨s, rfl⟩

theorem processAll_ok_shares {names : List (String × String)} :
    ∀ (es : List EnhancedExpense) (st st2 : CalcState),
      processAll names st es = .ok st2 →
      ∀ e ∈ es, ∃ s, calculateShares e = .ok s := by
  intro es
  induction es with
  | nil =>
    intro st st2 h e he
    simp at he
  | cons e rest ih =>
    intro st st2 h f hf
    rw [processAll] at h
    cases hpe : processExpense names st e with
    | error err =>
      rw [hpe] at h
      exact Except.noConfusion h
    | ok st1 =>
      rw [hpe] at h
      simp only [bind, Except.bind] at h
      rcases List.mem_cons.1 hf with h1 | h1
      · subst h1
        exact processExpense_ok_shares hpe
      · exact ih st1 st2 h f h1

theorem calcState_ok_shares {es : List EnhancedExpense} {st : CalcState}
    (h : calcState es = .ok st) :
    ∀ e ∈ es, ∃ s, calculateShares e = .ok s := by
  unfold calcState at h
  dsimp only [bind, Except.bind] at h
  cases hpa : processAll (initializeUserNames es) ⟨[], []⟩ es with
  | error err =>
    rw [hpa] at h
    exact Except.noConfusion h
  | ok st1 => exact processAll_ok_shares es _ _ hpa

/-- When every expense's computed shares reconstruct its amount exactly, the
debt-graph ghost collapses to paid-minus-share. -/
theorem netSpec_eq_spec {es : List EnhancedExpense}
    (hx : ∀ e ∈ es, shareSum e = e.amount) (uid : String) :
    netSpec es uid = specPaid es uid - specShare es uid := by
  unfold netSpec specPaid specShare
  rw [← sum_map_sub]
  refine congrArg List.sum (List.map_congr_left ?_)
  intro e he
  dsimp only
  by_cases hp : e.paidBy = uid
  · rw [if_pos hp, if_pos hp, hx e he]
  · rw [if_neg hp, if_neg hp]

/-! ### Per-key amounts in the settlement worklists -/

theorem amtOf_not_mem {u : String} {l : List (String × ℚ)}
    (h : u ∉ l.map (·.1)) : amtOf u l = 0 := by
  induction l with
  | nil => rfl
  | cons p rest ih =>
    obtain ⟨k, v⟩ := p
    have hk : k ≠ u := by
      intro hc
      exact h (by rw [List.map_cons]; exact hc ▸ List.mem_cons_self _ _)
    have ht : u ∉ rest.map (·.1) := by
      intro hm
      exact h (by rw [List.map_cons]; exact List.mem_cons_of_mem _ hm)
    rw [amtOf_cons, if_neg hk, ih ht]
    ring

theorem amtOf_perm {l l2 : List (String × ℚ)} (h : l.Perm l2) (u : String) :
    amtOf u l = amtOf u l2 :=
  ((h.filter _).map _).sum_eq

theorem amtOf_sort (key : String × ℚ → ℚ) (u : String)
    (l : List (String × ℚ)) : amtOf u (sortByDesc key l) = amtOf u l :=
  amtOf_perm (sortByDesc_perm key l) u

theorem amtTo_sort (key : Settlement → ℚ) (u : String) (l : List Settlement) :
    amtTo u (sortByDesc key l) = amtTo u l :=
  (((sortByDesc_perm key l).filter _).map _).sum_eq

theorem amtFrom_sort (key : Settlement → ℚ) (u : String) (l : List Settlement) :
    amtFrom u (sortByDesc key l) = amtFrom u l :=
  (((sortByDesc_perm key l).filter _).map _).sum_eq

theorem map_filter_subset {α β : Type} (f : α → β) (p : α → Bool) (l : List α) :
    ∀ x ∈ (l.filter p).map f, x ∈ l.map f := by
  intro x hx
  rw [List.mem_map] at hx ⊢
  obtain ⟨a, ha, rfl⟩ := hx
  exact ⟨a, List.mem_of_mem_filter ha, rfl⟩

/-- In a map with no duplicate keys, the per-key amount surviving a filter
is the entry's value when it passes, zero otherwise. -/
theorem amtOf_filter {l : List (String × ℚ)} (hnd : (mkeys l).Nodup)
    {k : String} {v : ℚ} (hm : (k, v) ∈ l) (p : String × ℚ → Bool) :
    amtOf k (l.filter p) = if p (k, v) then v else 0 := by
  induction l with
  | nil => simp at hm
  | cons q rest ih =>
    obtain ⟨hq, hrest⟩ := List.nodup_cons.1
      (by rw [show mkeys (q :: rest) = q.1 :: mkeys rest from rfl] at hnd; exact hnd)
    rcases List.mem_cons.1 hm with h | h
    · obtain rfl : q = (k, v) := h.symm
      have hnm : k ∉ (rest.filter p).map (·.1) := by
        intro hc
        exact hq (map_filter_subset _ _ _ _ hc)
      rw [List.filter_cons]
      split
      case isTrue hp =>
        rw [amtOf_cons, if_pos rfl, amtOf_not_mem hnm]
        ring
      case isFalse hp =>
        exact amtOf_not_mem hnm
    · have hqk : q.1 ≠ k := by
        intro hc
        exact hq (hc ▸ List.mem_map_of_mem _ h)
      obtain ⟨q1, q2⟩ := q
      rw [List.filter_cons]
      split
      · rw [amtOf_cons, if_neg hqk, ih hrest h]
        ring
      · exact ih hrest h

theorem debtor_keys_subset (l : List (String × ℚ)) :
    ∀ x ∈ ((l.filterMap fun p =>
        if p.2 < -(1 / 100) then some (p.1, |p.2|) else none).map (·.1)),
      x ∈ l.map (·.1) := by
  intro x hx
  rw [List.mem_map] at hx ⊢
  obtain ⟨a, ha, rfl⟩ := hx
  rw [List.mem_filterMap] at ha
  obtain ⟨b, hb, hf⟩ := ha
  by_cases h : b.2 < -(1 / 100)
  · rw [if_pos h] at hf
    exact ⟨b, hb, by rw [← Option.some.inj hf]⟩
  · rw [if_neg h] at hf
    exact Option.noConfusion hf

/-- Per-key amount in the debtor worklist built by `optimizeSettlements`. -/
theorem amtOf_filterMap_debtors {l : List (String × ℚ)}
    (hnd : (mkeys l).Nodup) {k : String} {v : ℚ} (hm : (k, v) ∈ l) :
    amtOf k (l.filterMap fun p =>
        if p.2 < -(1 / 100) then some (p.1, |p.2|) else none) =
      if v < -(1 / 100) then |v| else 0 := by
  induction l with
  | nil => simp at hm
  | cons q rest ih =>
    obtain ⟨hq, hrest⟩ := List.nodup_cons.1
      (by rw [show mkeys (q :: rest) = q.1 :: mkeys rest from rfl] at hnd; exact hnd)
    rcases List.mem_cons.1 hm with h | h
    · obtain rfl : q = (k, v) := h.symm
      have hnm : k ∉ ((rest.filterMap fun p =>
          if p.2 < -(1 / 100) then some (p.1, |p.2|) else none).map (·.1)) := by
        intro hc
        exact hq (debtor_keys_subset rest _ hc)
      rw [List.filterMap_cons]
      by_cases hv : v < -(1 / 100)
      · rw [if_pos hv]
        dsimp only
        rw [if_pos hv, amtOf_cons, if_pos rfl, amtOf_not_mem hnm]
        ring
      · rw [if_neg hv]
        dsimp only
        rw [if_neg hv, amtOf_not_mem hnm]
    · have hqk : q.1 ≠ k := by
        intro hc
        exact hq (hc ▸ List.mem_map_of_mem _ h)
      rw [List.filterMap_cons]
      by_cases hv : q.2 < -(1 / 100)
      · rw [if_pos hv]
        dsimp only
        rw [amtOf_cons, if_neg hqk, ih hrest h]
        ring
      · rw [if_neg hv]
        dsimp only
        exact ih hrest h

theorem debtors_mem {l : List (String × ℚ)} {q : String × ℚ}
    (hq : q ∈ l.filterMap fun p =>
        if p.2 < -(1 / 100) then some (p.1, |p.2|) else none) :
    ∃ p ∈ l, p.2 < -(1 / 100) ∧ q = (p.1, |p.2|) := by
  rw [List.mem_filterMap] at hq
  obtain ⟨p, hp, hf⟩ := hq
  by_cases h : p.2 < -(1 / 100)
  · rw [if_pos h] at hf
    exact ⟨p, hp, h, (Option.some.inj hf).symm⟩
  · rw [if_neg h] at hf
    exact Option.noConfusion hf

theorem isCent_abs {q : ℚ} (h : IsCent q) : IsCent |q| := by
  rcases abs_cases q with ⟨h1, -⟩ | ⟨h1, -⟩
  · rw [h1]
    exact h
  · rw [h1]
    exact isCent_neg h

/-! ### Core lemmas behind the balance and settlement claims -/

theorem optimizeSettlements_eq (names : List (String × String))
    (dg : List (String × List (String × ℚ))) :
    optimizeSettlements names dg = sortByDesc (·.amount) (loopOf names dg).1 := rfl

theorem loopResidue_eq {es : List EnhancedExpense} {st : CalcState}
    (hst : calcState es = .ok st) :
    loopResidue es = some ((loopOf (initializeUserNames es) st.debtGraph).2.1,
      (loopOf (initializeUserNames es) st.debtGraph).2.2.1,
      (loopOf (initializeUserNames es) st.debtGraph).2.2.2) := by
  unfold loopResidue
  rw [hst]
  rfl

/-- The balance map of an accepted calculation mentions exactly the users
mentioned in some expense. -/
theorem ub_keys_mentioned {es : List EnhancedExpense} {st : CalcState}
    (hst : calcState es = .ok st) (hcent : ∀ e ∈ es, IsCent e.amount)
    (uid : String) : uid ∈ mkeys st.userBalances ↔ mentioned es uid := by
  rw [← mget_isSome_iff_mem]
  exact UBchar_isSome (calcState_char hst hcent).1 uid

/-- Every entry of the balance map carries its user's exact accumulated
totals. -/
theorem ub_entry {es : List EnhancedExpense} {st : CalcState}
    (hst : calcState es = .ok st) (hcent : ∀ e ∈ es, IsCent e.amount)
    {p : String × UserBalance} (hp : p ∈ st.userBalances) :
    p.2.userId = p.1 ∧ p.2.totalPaid = specPaid es p.1 ∧
      p.2.totalShare = specShare es p.1 ∧
      p.2.balance = specPaid es p.1 - specShare es p.1 := by
  obtain ⟨hub, -, -⟩ := calcState_char hst hcent
  have hm := mget_of_mem_nodup hub.1 hp
  obtain ⟨-, h1, h2, h3, h4⟩ := hub.2.1 p.1 p.2 hm
  exact ⟨h1, h2, h3, h4⟩

theorem shares_users_mentioned {e : EnhancedExpense} {s : List ComputedShare}
    (hok : calculateShares e = .ok s) : ∀ x ∈ s, mentionsExp e x.userId := by
  intro x hx
  refine Or.inr ?_
  rw [← calculateShares_userIds hok]
  exact List.mem_map_of_mem _ hx

theorem shareOf_sum_keys {ks : List String} (hnd : ks.Nodup)
    {e : EnhancedExpense} (hmem : ∀ x ∈ sharesOf e, x.userId ∈ ks) :
    (ks.map fun k => shareOf e k).sum = shareSum e := by
  unfold shareOf shareSum
  rw [sum_comm_map ks (sharesOf e) (fun x k => if x.userId = k then x.amount else 0)]
  refine congrArg List.sum (List.map_congr_left ?_)
  intro x hx
  exact sum_ite_mem (hmem x hx) hnd x.amount

theorem specPaid_sum_keys {ks : List String} (hnd : ks.Nodup)
    {es : List EnhancedExpense} (hmem : ∀ e ∈ es, e.paidBy ∈ ks) :
    (ks.map fun k => specPaid es k).sum = (es.map (·.amount)).sum := by
  unfold specPaid
  rw [sum_comm_map ks es (fun e k => if e.paidBy = k then e.amount else 0)]
  refine congrArg List.sum (List.map_congr_left ?_)
  intro e he
  exact sum_ite_mem (hmem e he) hnd e.amount

theorem specShare_sum_keys {ks : List String} (hnd : ks.Nodup)
    {es : List EnhancedExpense}
    (hmem : ∀ e ∈ es, ∀ x ∈ sharesOf e, x.userId ∈ ks) :
    (ks.map fun k => specShare es k).sum = (es.map fun e => shareSum e).sum := by
  unfold specShare
  rw [sum_comm_map ks es (fun e k => shareOf e k)]
  refine congrArg List.sum (List.map_congr_left ?_)
  intro e he
  exact shareOf_sum_keys hnd (hmem e he)

/-- Exact conservation: when every expense's computed shares reconstruct its
amount exactly, the reported balances sum to exactly zero. -/
theorem balances_sum_zero {es : List EnhancedExpense} {st : CalcState}
    (hst : calcState es = .ok st) (hcent : ∀ e ∈ es, IsCent e.amount)
    (hx : ∀ e ∈ es, shareSum e = e.amount) :
    ((getUserBalances st).map (·.balance)).sum = 0 := by
  obtain ⟨hub, -, -⟩ := calcState_char hst hcent
  unfold getUserBalances
  rw [sortByDesc_sum_map, List.map_map]
  have hentry : (st.userBalances.map ((fun b => b.balance) ∘ (fun p => p.2))) =
      st.userBalances.map fun p => specPaid es p.1 - specShare es p.1 := by
    refine List.map_congr_left ?_
    intro p hp
    exact (ub_entry hst hcent hp).2.2.2
  rw [hentry]
  have hkeys : (st.userBalances.map fun p => specPaid es p.1 - specShare es p.1) =
      (mkeys st.userBalances).map fun k => specPaid es k - specShare es k := by
    rw [mkeys, List.map_map]
    rfl
  rw [hkeys, sum_map_sub]
  have hpm : ∀ e ∈ es, e.paidBy ∈ mkeys st.userBalances := by
    intro e he
    rw [ub_keys_mentioned hst hcent]
    exact ⟨e, he, Or.inl rfl⟩
  have hsm : ∀ e ∈ es, ∀ x ∈ sharesOf e, x.userId ∈ mkeys st.userBalances := by
    intro e he x hx2
    rw [ub_keys_mentioned hst hcent]
    obtain ⟨s, hsok⟩ := calcState_ok_shares hst e he
    refine ⟨e, he, ?_⟩
    refine shares_users_mentioned hsok x ?_
    rw [← sharesOf_eq hsok]
    exact hx2
  have hpaid := specPaid_sum_keys hub.1 hpm
  have hshare := specShare_sum_keys hub.1 hsm
  rw [hpaid, hshare]
  have hsx : (es.map fun e => shareSum e).sum = (es.map (·.amount)).sum := by
    refine congrArg List.sum (List.map_congr_left ?_)
    intro e he
    exact hx e he
  rw [hsx]
  ring

theorem creditors_cent {names : List (String × String)}
    {dg : List (String × List (String × ℚ))} (hdg : DGinv names dg) :
    ∀ p ∈ creditorsOf names dg, IsCent p.2 := by
  intro p hp
  rw [creditorsOf, sortByDesc_mem] at hp
  have h2 := List.mem_of_mem_filter hp
  rw [(nets_entry hdg h2).1]
  exact netOf_cent hdg p.1

theorem debtors_cent {names : List (String × String)}
    {dg : List (String × List (String × ℚ))} (hdg : DGinv names dg) :
    ∀ p ∈ debtorsOf names dg, IsCent p.2 := by
  intro p hp
  rw [debtorsOf, sortByDesc_mem] at hp
  obtain ⟨q, hq, -, rfl⟩ := debtors_mem hp
  dsimp only
  rw [(nets_entry hdg hq).1]
  exact isCent_abs (netOf_cent hdg q.1)

/-- With no dropped settles and empty leftovers, the recorded settlements
move exactly the filtered net balance of every known user. -/
theorem loop_amounts {es : List EnhancedExpense} {st : CalcState}
    (hst : calcState es = .ok st) (hcent : ∀ e ∈ es, IsCent e.amount)
    (hres : loopResidue es = some ([], [], []))
    (k : String) (hk : (mget (initializeUserNames es) k).isSome = true) :
    amtTo k (loopOf (initializeUserNames es) st.debtGraph).1 =
      (if 1 / 100 < netOf st.debtGraph k then netOf st.debtGraph k else 0) ∧
    amtFrom k (loopOf (initializeUserNames es) st.debtGraph).1 =
      (if netOf st.debtGraph k < -(1 / 100) then |netOf st.debtGraph k| else 0) := by
  have hdg := (calcState_char hst hcent).2.1
  have hchar := computeNetBalances_char hdg
  have hksome : (mget (computeNetBalances (initializeUserNames es) st.debtGraph)
      k).isSome = true := by
    rw [NBchar_isSome hchar k]
    exact hk
  obtain ⟨v, hv⟩ := Option.isSome_iff_exists.1 hksome
  have hveq : v = netOf st.debtGraph k := (hchar.2.1 k v hv).2
  subst hveq
  have hmem := mget_some_mem hv
  obtain ⟨acc1, acc2, -⟩ := settleLoop_acc
    ((creditorsOf (initializeUserNames es) st.debtGraph).length +
      (debtorsOf (initializeUserNames es) st.debtGraph).length)
    (creditorsOf (initializeUserNames es) st.debtGraph)
    (debtorsOf (initializeUserNames es) st.debtGraph)
    (creditors_cent hdg) (debtors_cent hdg)
  have h3 := Option.some.inj ((loopResidue_eq hst).symm.trans hres)
  have he1 : (loopOf (initializeUserNames es) st.debtGraph).2.1 = [] :=
    congrArg Prod.fst h3
  have he2 : (loopOf (initializeUserNames es) st.debtGraph).2.2.1 = [] :=
    congrArg (fun x => x.2.1) h3
  have he3 : (loopOf (initializeUserNames es) st.debtGraph).2.2.2 = [] :=
    congrArg (fun x => x.2.2) h3
  have ha1 := acc1 k
  have ha2 := acc2 k
  rw [show settleLoop (initializeUserNames es)
      ((creditorsOf (initializeUserNames es) st.debtGraph).length +
        (debtorsOf (initializeUserNames es) st.debtGraph).length)
      (creditorsOf (initializeUserNames es) st.debtGraph)
      (debtorsOf (initializeUserNames es) st.debtGraph) =
      loopOf (initializeUserNames es) st.debtGraph from rfl] at ha1 ha2
  rw [he1, he3] at ha1
  rw [he2, he3] at ha2
  have hz : ∀ u, amtTo u ([] : List Settlement) = 0 := fun u => rfl
  have hz2 : ∀ u, amtFrom u ([] : List Settlement) = 0 := fun u => rfl
  have hz3 : ∀ u, amtOf u ([] : List (String × ℚ)) = 0 := fun u => rfl
  rw [hz k, hz3 k] at ha1
  rw [hz2 k, hz3 k] at ha2
  have hc1 : amtOf k (creditorsOf (initializeUserNames es) st.debtGraph) =
      if 1 / 100 < netOf st.debtGraph k then netOf st.debtGraph k else 0 := by
    rw [creditorsOf, amtOf_sort,
      amtOf_filter (nets_keys_nodup hdg) hmem (fun p => decide (1 / 100 < p.2))]
    by_cases h : 1 / 100 < netOf st.debtGraph k
    · rw [if_pos (by simpa using h), if_pos h]
    · rw [if_neg (by simpa using h), if_neg h]
  have hc2 : amtOf k (debtorsOf (initializeUserNames es) st.debtGraph) =
      if netOf st.debtGraph k < -(1 / 100) then |netOf st.debtGraph k| else 0 := by
    rw [debtorsOf, amtOf_sort, amtOf_filterMap_debtors (nets_keys_nodup hdg) hmem]
  constructor
  · rw [← hc1, ha1]
    ring
  · rw [← hc2, ha2]
    ring

/-- Per-user settlement correctness: under exact shares and an exhausted
greedy loop, applying the optimized settlements to any reported balance
lands within the tolerance of zero. -/
theorem settle_core {es : List EnhancedExpense} {st : CalcState}
    (hst : calcState es = .ok st) (hx : ∀ e ∈ es, shareSum e = e.amount)
    (hcent : ∀ e ∈ es, IsCent e.amount)
    (hres : loopResidue es = some ([], [], []))
    {b : UserBalance} (hb : b ∈ getUserBalances st) :
    |b.balance +
      amtFrom b.userId (optimizeSettlements (initializeUserNames es) st.debtGraph) -
      amtTo b.userId (optimizeSettlements (initializeUserNames es) st.debtGraph)| ≤
      1 / 100 := by
  rw [getUserBalances, sortByDesc_mem, List.mem_map] at hb
  obtain ⟨p, hp, rfl⟩ := hb
  obtain ⟨hid, -, -, hbal⟩ := ub_entry hst hcent hp
  have hkey : (mget (initializeUserNames es) p.1).isSome = true := by
    rw [names_isSome]
    rw [← ub_keys_mentioned hst hcent]
    exact List.mem_map_of_mem _ hp
  obtain ⟨hto, hfrom⟩ := loop_amounts hst hcent hres p.1 hkey
  rw [optimizeSettlements_eq, hid, amtFrom_sort, amtTo_sort, hto, hfrom, hbal]
  have hnet := (calcState_char hst hcent).2.2 p.1
  rw [← netSpec_eq_spec hx p.1, ← hnet]
  by_cases h1 : 1 / 100 < netOf st.debtGraph p.1
  · rw [if_pos h1, if_neg (by linarith)]
    rw [show netOf st.debtGraph p.1 + 0 - netOf st.debtGraph p.1 = 0 by ring]
    norm_num
  · by_cases h2 : netOf st.debtGraph p.1 < -(1 / 100)
    · rw [if_neg h1, if_pos h2,
        abs_of_neg (show netOf st.debtGraph p.1 < 0 by linarith)]
      rw [show netOf st.debtGraph p.1 + -netOf st.debtGraph p.1 - 0 = 0 by ring]
      norm_num
    · rw [if_neg h1, if_neg h2]
      rw [show netOf st.debtGraph p.1 + 0 - 0 = netOf st.debtGraph p.1 by ring]
      rw [abs_le]
      constructor <;> linarith

/-! ### Observer equations on accepted inputs -/

theorem conservationSum_eq {es : List EnhancedExpense}
    {r : BalanceCalculationResult} (hok : runCalculation es = .ok r) :
    conservationSum es = some ((r.userBalances.map (·.balance)).sum) := by
  unfold conservationSum
  rw [hok]

theorem conservationCheck_eq {es : List EnhancedExpense}
    {r : BalanceCalculationResult} (hok : runCalculation es = .ok r) :
    conservationCheck es =
      some (decide (|(r.userBalances.map (·.balance)).sum| ≤ 1 / 100)) := by
  unfold conservationCheck
  rw [hok]

theorem settlementCheck_eq {es : List EnhancedExpense}
    {r : BalanceCalculationResult} (hok : runCalculation es = .ok r) :
    settlementCheck es =
      some (r.userBalances.all fun b => decide (|adjustedBalance r b| ≤ 1 / 100)) := by
  unfold settlementCheck
  rw [hok]

theorem settlementBoundCheck_eq {es : List EnhancedExpense}
    {r : BalanceCalculationResult} (hok : runCalculation es = .ok r) :
    settlementBoundCheck es =
      some (decide ((r.settlements.length : ℤ) ≤
        (creditorCount es : ℤ) + (debtorCount es : ℤ) - 1)) := by
  unfold settlementBoundCheck
  rw [hok]

theorem crossCheck_eq {es : List EnhancedExpense} {st : CalcState}
    (hst : calcState es = .ok st) :
    crossCheck es =
      some ((computeNetBalances (initializeUserNames es) st.debtGraph).all fun p =>
        decide (|(((mget st.userBalances p.1).map (·.balance)).getD 0) - p.2| ≤
          1 / 100)) := by
  unfold crossCheck
  rw [hst]

theorem resultUserIds_eq {es : List EnhancedExpense}
    {r : BalanceCalculationResult} (hok : runCalculation es = .ok r) :
    resultUserIds es = some (r.userBalances.map (·.userId)) := by
  unfold resultUserIds
  rw [hok]

/-- C5 (amended): for every expense the engine accepts, with a cent-
representable amount and cent-representable participant values, the computed
per-participant amounts reconstruct the expense total to within the 0.01
tolerance, and exactly for an EQUAL split.  (The original exactness claim
fails for PERCENTAGE splits, see the counterexample.) -/
theorem C5_share_sum (e : EnhancedExpense) (shares : List ComputedShare)
    (hok : calculateShares e = .ok shares) (hc : IsCent e.amount)
    (hv : ∀ p ∈ e.participants, IsCent p.value) :
    |shareSum e - e.amount| ≤ 1 / 100 ∧
      (e.splitType = SplitType.EQUAL → shareSum e = e.amount) := by
  have hsh : sharesOf e = shares := sharesOf_eq hok
  rw [calculateShares] at hok
  split at hok
  case h_1 heq =>
    obtain ⟨amts, hd, hz, hlen⟩ := calculateEqualShares_ok hok
    have hsum : shareSum e = amts.sum := by
      rw [shareSum, hsh, hz, zipAmounts_amounts hlen.symm]
    obtain ⟨hpos, hnn⟩ := distribute_ok_cond hd
    obtain ⟨k, hk⟩ := hc
    have hk0 : 0 ≤ k := by
      have h100 : (0 : ℚ) ≤ (k : ℚ) / 100 := hk ▸ hnn
      by_contra hneg
      push_neg at hneg
      have hlt : (k : ℚ) / 100 < 0 :=
        div_neg_of_neg_of_pos (by exact_mod_cast hneg) (by norm_num)
      linarith
    have hn : 1 ≤ e.participants.length := by
      have h1 : 0 < e.participants.length := by exact_mod_cast hpos
      omega
    have hamt : e.amount = ((k.toNat : ℕ) : ℚ) / 100 := by
      rw [hk]
      congr 1
      exact_mod_cast (Int.toNat_of_nonneg hk0).symm
    obtain ⟨l, hl, -, hlsum, -, -⟩ := distribute_spec k.toNat e.participants.length hn
    rw [← hamt] at hl
    have hle : l = amts := Except.ok.inj (hl.symm.trans hd)
    have hexact : shareSum e = e.amount := by
      rw [hsum, ← hle, hlsum, ← hamt]
    refine ⟨?_, fun h2 => hexact⟩
    rw [hexact, sub_self, abs_zero]
    norm_num
  case h_2 heq =>
    obtain ⟨amts, hd, hz⟩ := calculatePercentageShares_ok hok
    have hlen : amts.length = e.participants.length := by
      rw [distributeByPercentages_ok_length hd, List.length_map]
    have hsum : shareSum e = amts.sum := by
      rw [shareSum, hsh, hz, zipAmounts_amounts hlen.symm]
    obtain ⟨k, hk⟩ := hc
    obtain ⟨-, -, hb, -⟩ := distributeByPercentages_spec k hk hd
    refine ⟨by rw [hsum]; exact hb, ?_⟩
    intro hq
    rw [heq] at hq
    exact SplitType.noConfusion hq
  case h_3 heq =>
    obtain ⟨hg, hz⟩ := calculateCustomShares_ok hok
    have hsum : shareSum e =
        (e.participants.map fun s => round s.value).sum := by
      rw [shareSum, hsh, hz, List.map_map]
      rfl
    have hval : (e.participants.map fun s => round s.value) =
        e.participants.map fun s => s.value := by
      refine List.map_congr_left ?_
      intro p hp
      exact round_cent (hv p hp)
    have hgq : |(e.participants.map (·.value)).sum - e.amount| < 1 / 100 :=
      of_decide_eq_true hg
    refine ⟨?_, ?_⟩
    · rw [hsum, hval]
      exact le_of_lt hgq
    · intro hq
      rw [heq] at hq
      exact SplitType.noConfusion hq
  case h_4 heq =>
    obtain ⟨amts, hd, hz⟩ := calculateWeightedShares_ok hok
    have hlen : amts.length = e.participants.length := by
      rw [distributeByShares_ok_length hd, List.length_map]
    have hsum : shareSum e = amts.sum := by
      rw [shareSum, hsh, hz, zipAmounts_amounts hlen.symm]
    obtain ⟨k, hk⟩ := hc
    obtain ⟨-, -, hb⟩ := distributeByShares_spec k hk hd
    refine ⟨by rw [hsum]; exact hb, ?_⟩
    intro hq
    rw [heq] at hq
    exact SplitType.noConfusion hq

/-- C1 (amended): conservation of balances.  On every accepted calculation
whose expenses have cent-representable amounts and whose computed shares
reconstruct each expense total exactly, the reported net balances sum to
exactly zero — in particular the 0.01-tolerance conservation check passes.
(The unconditional tolerance claim fails, see the counterexample.) -/
theorem C1_conservation (es : List EnhancedExpense)
    (hrun : isOkE (runCalculation es) = true)
    (hcent : ∀ e ∈ es, IsCent e.amount)
    (hx : ∀ e ∈ es, shareSum e = e.amount) :
    conservationSum es = some 0 ∧ conservationCheck es = some true := by
  cases hok : runCalculation es with
  | error err =>
    rw [hok] at hrun
    simp [isOkE] at hrun
  | ok r =>
    obtain ⟨st, avg, hst, hdiv, hr⟩ := runCalculation_ok hok
    have hz : ((getUserBalances st).map (·.balance)).sum = 0 :=
      balances_sum_zero hst hcent hx
    have hub : r.userBalances = getUserBalances st := by rw [hr]
    constructor
    · rw [conservationSum_eq hok, hub, hz]
    · rw [conservationCheck_eq hok, hub]
      refine congrArg some (decide_eq_true ?_)
      rw [hz]
      norm_num

/-- C8 (amended): the two balance derivations agree.  On every accepted
calculation with cent-representable amounts and exactly reconstructing
shares, the per-user balance from direct accumulation and the one from
folding the debt graph agree exactly, so the cross-check passes for every
known user.  (Without the exactness hypothesis the derivations can drift
apart beyond tolerance while the engine still returns a result, and no
`InconsistentBalances` failure exists in the code — see the
counterexample.) -/
theorem C8_cross_check (es : List EnhancedExpense)
    (hrun : isOkE (calcState es) = true)
    (hcent : ∀ e ∈ es, IsCent e.amount)
    (hx : ∀ e ∈ es, shareSum e = e.amount) :
    crossCheck es = some true := by
  cases hst : calcState es with
  | error err =>
    rw [hst] at hrun
    simp [isOkE] at hrun
  | ok st =>
    rw [crossCheck_eq hst]
    refine congrArg some ?_
    rw [List.all_eq_true]
    intro p hp
    rw [decide_eq_true_eq]
    obtain ⟨hub, hdg, hnet⟩ := calcState_char hst hcent
    have hval := (nets_entry hdg hp).1
    have hnamed := (nets_entry hdg hp).2
    have hment : mentioned es p.1 := (names_isSome es p.1).1 hnamed
    have hsome : (mget st.userBalances p.1).isSome :=
      (UBchar_isSome hub p.1).2 hment
    obtain ⟨b, hb⟩ := Option.isSome_iff_exists.1 hsome
    rw [hb]
    have hbal := (hub.2.1 p.1 b hb).2.2.2.2
    rw [show ((some b).map fun x => x.balance).getD 0 = b.balance from rfl,
      hbal, hval, hnet p.1, netSpec_eq_spec hx p.1, sub_self, abs_zero]
    norm_num

/-- C10 (amended): roster completeness relative to the derived roster.  The
calculator takes no external roster: the set of participants in the output
is exactly the set of users mentioned by some expense (as payer or listed
participant). -/
theorem C10_roster_completeness (es : List EnhancedExpense) (ids : List String)
    (h : resultUserIds es = some ids) (hcent : ∀ e ∈ es, IsCent e.amount) :
    ∀ uid, uid ∈ ids ↔ mentioned es uid := by
  cases hok : runCalculation es with
  | error err =>
    unfold resultUserIds at h
    rw [hok] at h
    exact Option.noConfusion h
  | ok r =>
    obtain rfl : r.userBalances.map (·.userId) = ids :=
      Option.some.inj ((resultUserIds_eq hok).symm.trans h)
    obtain ⟨st, avg, hst, hdiv, hr⟩ := runCalculation_ok hok
    have hub : r.userBalances = getUserBalances st := by rw [hr]
    rw [hub]
    intro uid
    rw [List.mem_map]
    constructor
    · rintro ⟨b, hb, rfl⟩
      rw [getUserBalances, sortByDesc_mem, List.mem_map] at hb
      obtain ⟨p, hp, rfl⟩ := hb
      rw [(ub_entry hst hcent hp).1, ← ub_keys_mentioned hst hcent]
      exact List.mem_map_of_mem _ hp
    · intro hm
      rw [← ub_keys_mentioned hst hcent] at hm
      rw [mkeys, List.mem_map] at hm
      obtain ⟨p, hp, rfl⟩ := hm
      refine ⟨p.2, ?_, (ub_entry hst hcent hp).1⟩
      rw [getUserBalances, sortByDesc_mem]
      exact List.mem_map_of_mem _ hp

theorem debtors_length (l : List (String × ℚ)) :
    (l.filterMap fun p =>
        if p.2 < -(1 / 100) then some (p.1, |p.2|) else none).length =
      (l.filter fun p => decide (p.2 < -(1 / 100))).length := by
  induction l with
  | nil => rfl
  | cons q rest ih =>
    rw [List.filterMap_cons, List.filter_cons]
    by_cases h : q.2 < -(1 / 100)
    · rw [if_pos h, if_pos (decide_eq_true h)]
      dsimp only
      rw [List.length_cons, List.length_cons, ih]
    · have hd : ¬ (decide (q.2 < -(1 / 100)) = true) := by simpa using h
      rw [if_neg h, if_neg hd]
      dsimp only
      exact ih

/-- C3 (amended): settlement correctness.  On every accepted calculation
with cent-representable amounts and exactly reconstructing shares, and whose
greedy loop finishes with no unprocessed creditor or debtor entries and no
dropped sub-tolerance settle steps, applying every optimized settlement
(subtract from the debtor, add to the creditor) brings every reported
balance within 0.01 of zero.  (Dropped sub-cent steps can leave a
participant 0.02 short, see the counterexample.) -/
theorem C3_settlement_correctness (es : List EnhancedExpense)
    (hrun : isOkE (runCalculation es) = true)
    (hcent : ∀ e ∈ es, IsCent e.amount)
    (hx : ∀ e ∈ es, shareSum e = e.amount)
    (hres : loopResidue es = some ([], [], [])) :
    settlementCheck es = some true := by
  cases hok : runCalculation es with
  | error err =>
    rw [hok] at hrun
    simp [isOkE] at hrun
  | ok r =>
    obtain ⟨st, avg, hst, hdiv, hr⟩ := runCalculation_ok hok
    rw [settlementCheck_eq hok]
    refine congrArg some ?_
    rw [List.all_eq_true]
    intro b hb
    rw [decide_eq_true_eq]
    have hub : r.userBalances = getUserBalances st := by rw [hr]
    have hset : r.settlements =
        optimizeSettlements (initializeUserNames es) st.debtGraph := by rw [hr]
    rw [hub] at hb
    have hcore := settle_core hst hx hcent hres hb
    show |b.balance +
      ((r.settlements.filter fun s => s.fromUser == b.userId).map (·.amount)).sum -
      ((r.settlements.filter fun s => s.toUser == b.userId).map (·.amount)).sum| ≤
      1 / 100
    rw [hset]
    exact hcore

/-- C7 (amended): settlement count bound and termination.  The greedy loop
is modelled by a total function, and on every accepted calculation with at
least one creditor or debtor the number of optimized settlements is at most
(number of creditors) + (number of debtors) - 1.  (With zero creditors and
zero debtors the stated bound is -1 and fails, see the counterexample.) -/
theorem C7_settlement_bound (es : List EnhancedExpense)
    (hrun : isOkE (runCalculation es) = true)
    (hcd : 1 ≤ creditorCount es + debtorCount es) :
    settlementBoundCheck es = some true := by
  cases hok : runCalculation es with
  | error err =>
    rw [hok] at hrun
    simp [isOkE] at hrun
  | ok r =>
    obtain ⟨st, avg, hst, hdiv, hr⟩ := runCalculation_ok hok
    rw [settlementBoundCheck_eq hok]
    refine congrArg some (decide_eq_true ?_)
    have hset : r.settlements =
        optimizeSettlements (initializeUserNames es) st.debtGraph := by rw [hr]
    have hlen : r.settlements.length =
        (loopOf (initializeUserNames es) st.debtGraph).1.length := by
      rw [hset, optimizeSettlements_eq, sortByDesc_length]
    have hcc : creditorCount es =
        (creditorsOf (initializeUserNames es) st.debtGraph).length := by
      have h1 : creditorCount es =
          ((computeNetBalances (initializeUserNames es) st.debtGraph).filter
            fun p => decide (1 / 100 < p.2)).length := by
        unfold creditorCount
        rw [hst]
      rw [h1, creditorsOf, sortByDesc_length]
    have hdd : debtorCount es =
        (debtorsOf (initializeUserNames es) st.debtGraph).length := by
      have h1 : debtorCount es =
          ((computeNetBalances (initializeUserNames es) st.debtGraph).filter
            fun p => decide (p.2 < -(1 / 100))).length := by
        unfold debtorCount
        rw [hst]
      rw [h1, debtorsOf, sortByDesc_length, debtors_length]
    rw [hlen, hcc, hdd]
    rw [hcc, hdd] at hcd
    rcases hc0 : creditorsOf (initializeUserNames es) st.debtGraph with _ | ⟨chd, ctl⟩
    · have hl0 : (loopOf (initializeUserNames es) st.debtGraph).1 = [] := by
        rw [loopOf, hc0, settleLoop_nil_left]
      rw [hl0]
      rw [hc0] at hcd
      simp only [List.length_nil] at hcd ⊢
      omega
    · rcases hd0 : debtorsOf (initializeUserNames es) st.debtGraph with _ | ⟨dhd, dtl⟩
      · have hl0 : (loopOf (initializeUserNames es) st.debtGraph).1 = [] := by
          rw [loopOf, hc0, hd0, settleLoop_nil_right]
        rw [hl0]
        rw [hc0, hd0] at hcd
        simp only [List.length_nil, List.length_cons] at hcd ⊢
        omega
      · have hl1 : (loopOf (initializeUserNames es) st.debtGraph).1 =
            (settleLoop (initializeUserNames es)
              ((chd :: ctl).length + (dhd :: dtl).length)
              (chd :: ctl) (dhd :: dtl)).1 := by
          rw [loopOf, hc0, hd0]
        have hb := @settleLoop_count (initializeUserNames es)
          ((chd :: ctl).length + (dhd :: dtl).length) (chd :: ctl) (dhd :: dtl)
          (List.cons_ne_nil _ _) (List.cons_ne_nil _ _)
        rw [hl1]
        rw [hc0, hd0] at hcd
        simp only [List.length_cons] at hb hcd ⊢
        omega

/-! ### Concrete evidence: decidable instances, counterexamples, witnesses -/

section ConcreteEvidence

attribute [local semireducible] Rat.mul Rat.inv Rat.add Rat.sub Rat.ofScientific

/-- Cent-representability of the amounts in the three-way equal scenario. -/
theorem sc1_cent : ∀ e ∈ sc1, IsCent e.amount := by
  intro e he
  simp only [sc1, List.mem_singleton] at he
  subst he
  exact ⟨9000, by norm_num [sc1e]⟩

/-- C2: distribution exactness with deterministic remainder placement for
every cent-representable nonnegative total and positive integer count: one
part per share, exact sum, non-negative parts, base amount plus one extra
cent on exactly the first remainder-cents parts in input order; and the
concrete instance distribute(100, 3) = [33.34, 33.33, 33.33]. -/
theorem C2_distribution_exact (c n : ℕ) (hn : 1 ≤ n) :
    (∃ l, distribute ((c : ℚ) / 100) ((n : ℕ) : ℤ) = .ok l ∧
      l.length = n ∧ l.sum = (c : ℚ) / 100 ∧ (∀ x ∈ l, 0 ≤ x) ∧
      l = (List.range n).map fun (i : ℕ) =>
        if i < c % n then (⌊(c : ℚ) / 100 * 100 / (n : ℚ)⌋ : ℚ) / 100 + 1 / 100
        else (⌊(c : ℚ) / 100 * 100 / (n : ℚ)⌋ : ℚ) / 100) ∧
    distribute 100 3 = .ok [3334 / 100, 3333 / 100, 3333 / 100] :=
  ⟨distribute_spec c n hn, by decide⟩

theorem C2_distribution_exact_witness :
    1 ≤ 3 ∧
      ((∃ l, distribute (((10000 : ℕ) : ℚ) / 100) (((3 : ℕ) : ℕ) : ℤ) = .ok l ∧
        l.length = 3 ∧ l.sum = ((10000 : ℕ) : ℚ) / 100 ∧ (∀ x ∈ l, 0 ≤ x) ∧
        l = (List.range 3).map fun (i : ℕ) =>
          if i < 10000 % 3 then
            (⌊((10000 : ℕ) : ℚ) / 100 * 100 / ((3 : ℕ) : ℚ)⌋ : ℚ) / 100 + 1 / 100
          else (⌊((10000 : ℕ) : ℚ) / 100 * 100 / ((3 : ℕ) : ℚ)⌋ : ℚ) / 100) ∧
      distribute 100 3 = .ok [3334 / 100, 3333 / 100, 3333 / 100]) :=
  ⟨by decide, C2_distribution_exact 10000 3 (by decide)⟩

/-- C4 (amended): percentage distribution reconstructs a cent-representable
total to within one cent, with cent-representable parts, and reconstructs it
exactly whenever the rounding residual exceeds the tolerance (the largest
part absorbs it in full) — but an accepted percentage list can leave a
one-cent shortfall uncorrected, so the unconditional exactness claim fails
(see the counterexample). -/
theorem C4_percentage_exactness (total : ℚ) (c : ℤ) (hc : total = (c : ℚ) / 100)
    (ps l : List ℚ) (hok : distributeByPercentages total ps = .ok l) :
    l.length = ps.length ∧ (∀ q ∈ l, IsCent q) ∧ |l.sum - total| ≤ 1 / 100 ∧
      (1 / 100 < |round (total - (ps.map fun pct => multiply total (pct / 100)).sum)| →
        l.sum = total) :=
  distributeByPercentages_spec c hc hok

theorem C4_percentage_exactness_witness :
    |([50, 50] : List ℚ).sum - 100| ≤ 1 / 100 :=
  (C4_percentage_exactness 100 10000 (by norm_num) [50, 50] [50, 50]
    (by decide)).2.2.1

theorem C4_percentage_exactness_cex :
    distributeByPercentages 100 [3333 / 100, 3333 / 100, 3333 / 100] =
      .ok [3333 / 100, 3333 / 100, 3333 / 100] ∧
    ([3333 / 100, 3333 / 100, 3333 / 100] : List ℚ).sum = 9999 / 100 := by
  constructor
  · decide
  · decide

/-- C6 (corrected): the empty expense list does not produce a zeroed result
object; the summary's average-per-participant divides the total by the zero
participant count and the whole calculation aborts with a division-by-zero
error. -/
theorem C6_empty_expense_list :
    runCalculation [] = Except.error CalcError.divisionByZero := by decide

theorem C6_empty_expense_list_cex :
    conservationCheck [] = none ∧ resultUserIds [] = none := by
  constructor
  · decide
  · decide

/-- C9 (code bug): `distributeByShares` only rejects a weight sum that is
exactly zero, so a strictly negative weight sum is accepted and a
distribution is returned instead of the documented error; a sum of exactly
zero still errors. -/
theorem C9_share_weight_validation :
    distributeByShares 100 [-1, -1] = .ok [50, 50] ∧
    ([(-1 : ℚ), -1]).sum = -2 ∧
    distributeByShares 100 [1, -1] = .error CalcError.shareWeightsZero := by
  refine ⟨by decide, by decide, by decide⟩

theorem C1_conservation_cex : conservationCheck cex1 = some false := by decide

theorem C1_conservation_witness :
    conservationSum sc1 = some 0 ∧ conservationCheck sc1 = some true :=
  C1_conservation sc1 (by decide) sc1_cent (by decide)

theorem C3_settlement_correctness_cex :
    settlementCheck cexC3 = some false := by decide

theorem C3_settlement_correctness_witness :
    settlementCheck sc1 = some true :=
  C3_settlement_correctness sc1 (by decide) sc1_cent (by decide) (by decide)

theorem C5_share_sum_cex :
    shareSum pexp100 = 9999 / 100 ∧ pexp100.amount = 100 ∧
      isOkE (calculateShares pexp100) = true := by
  refine ⟨by decide, by decide, by decide⟩

theorem C5_share_sum_witness : shareSum sc1e = sc1e.amount :=
  (C5_share_sum sc1e
    [⟨"a", "Alice", 0, 30⟩, ⟨"b", "Bob", 0, 30⟩, ⟨"c", "Cara", 0, 30⟩]
    (by decide) ⟨9000, by norm_num [sc1e]⟩
    (by
      intro p hp
      simp only [sc1e] at hp
      fin_cases hp <;> exact ⟨0, by norm_num⟩)).2 rfl

theorem C7_settlement_bound_cex :
    settlementBoundCheck cexC7 = some false := by decide

theorem C7_settlement_bound_witness :
    settlementBoundCheck sc1 = some true :=
  C7_settlement_bound sc1 (by decide) (by decide)

theorem C8_cross_check_cex : crossCheck cex1 = some false := by decide

theorem C8_cross_check_witness : crossCheck sc1 = some true :=
  C8_cross_check sc1 (by decide) sc1_cent (by decide)

theorem C10_roster_completeness_cex :
    resultUserIds sc1 = some ["a", "b", "c"] := by decide

theorem C10_roster_completeness_witness :
    "b" ∈ ["a", "b", "c"] ↔ mentioned sc1 "b" :=
  C10_roster_completeness sc1 ["a", "b", "c"] (by decide) sc1_cent "b"

end ConcreteEvidence

end TripSplit

